import Mathlib

set_option maxRecDepth 4000

/-!
Verification development for the watame media-sharing backend
(post/tag storage-and-search subsystem).

Shallow embedding of the Rust sources:
  src/database/enums.rs, src/database/tag.rs, src/database/post.rs,
  src/database/user.rs, src/pages/post.rs, src/pages/search.rs.

Conventions of the embedding:
  * Machine integers (i64, i32, u32) become Int or Nat, with explicit
    `% 2^32` where u32 overflow matters.
  * Bytes (u8) become Nat; a byte buffer (&[u8]) becomes List Nat.
  * Fallible Rust code returns Except; code that can panic returns a
    dedicated result type with a `panicked` constructor.
  * Database tables become lists of row structures; a SQL statement
    becomes a pure function on those lists.  Several statements run
    inside one transaction; an aborted transaction is modelled by
    returning the caller the original state.
  * Server-side behaviour of PostgreSQL that the repository relies on
    (to_tsvector, plainto_tsquery, ORDER BY / OFFSET / LIMIT) is not in
    src/ and is modelled from the spec; those definitions carry a
    doc comment starting with `Modelled from the spec:`.
-/

/-! ## Enumerations (src/database/enums.rs) -/

/-- Permission levels, from `enum Perms` in src/database/enums.rs. -/
inductive Perms where
  | Guest
  | User
  | Moderator
  | Admin
deriving DecidableEq, Repr

/-- Content rating, from `enum Rating` in src/database/enums.rs. -/
inductive Rating where
  | Safe
  | Sketchy
  | Explicit
deriving DecidableEq, Repr

/-- Image extension, from `enum ImageExtension` in src/database/enums.rs. -/
inductive ImageExtension where
  | Bmp
  | Gif
  | Jpg
  | Png
  | Tiff
  | Webp
deriving DecidableEq, Repr

/-- Sort orders, from `enum PostSorting` in src/pages/search.rs. -/
inductive PostSorting where
  | DateAscending
  | DateDescending
  | VoteAscending
  | VoteDescending
deriving DecidableEq, Repr

/-- API error type, from `enum APIError` in src/error.rs (the variants the
modelled handlers can produce). -/
inductive APIError where
  | InternalError
  | BadRequestData
  | Timeout
  | Auth
  | PayloadSize
  | MimeType
  | TagLimit
  | BadTags
  | PageSize
deriving DecidableEq, Repr

/-- Database error type, from `enum DatabaseError` in src/database/error.rs.
`postgresErr` stands for a wrapped tokio-postgres error; the only way the
modelled code produces one is a `query_one` call that does not find exactly
one row. -/
inductive DatabaseError where
  | unknownEnum
  | postgresErr
deriving DecidableEq, Repr

/-! ## Row types (src/database/post.rs, user.rs, tag.rs)

Timestamps (chrono DateTime) are embedded as Int: the code never inspects
them except through SQL ORDER BY, which only needs a linear order. -/

/-- A fully materialised post row, from `struct PostFull` in
src/database/post.rs.  `tag_vector` holds the decoded lexeme list of the
stored tsvector. -/
structure PostRow where
  id : Int
  poster : Int
  tag_vector : List String
  create_date : Int
  modified_date : Int
  description : Option String
  rating : Rating
  score : Int
  views : Int
  source : Option String
  filename : String
  path : String
  ext : ImageExtension
  size : Int
  width : Int
  height : Int
  is_deleted : Bool
deriving DecidableEq, Repr

/-- A user row, from `struct User` in src/database/user.rs. -/
structure UserRow where
  id : Int
  name : String
  email : Option String
  pass : String
  picture : String
  perms : Perms
deriving DecidableEq, Repr

/-- A tag counter row, from `struct Tag` in src/database/tag.rs.  The `id`
and `ty` columns are never read by the modelled operations and are elided;
`name` carries the unique key and `count` the denormalised counter. -/
structure TagRow where
  name : String
  count : Int
deriving DecidableEq, Repr

/-- The relational store: the three tables the core touches, plus the
sequence that assigns fresh post identifiers on insert. -/
structure Store where
  posts : List PostRow
  users : List UserRow
  tags : List TagRow
  nextId : Int
deriving DecidableEq, Repr

/-! ## UTF-8 byte codec

`tsvector_from_sql` in src/database/tag.rs calls `std::str::from_utf8` on
the lexeme bytes.  The embedding works on byte lists, so the library
behaviour of strict UTF-8 encoding and validation is reproduced here:
`utf8EncodeCharNat` is the standard scalar-value encoding (the byte image
of a Rust &str is the concatenation over its chars), and
`utf8DecodeChar` accepts exactly the byte sequences that
`std::str::from_utf8` accepts (continuation bytes in 0x80..0xBF, no
overlong forms, no surrogates, no values above 0x10FFFF). -/

/-- Standard UTF-8 encoding of one Unicode scalar value as bytes. -/
def utf8EncodeCharNat (n : Nat) : List Nat :=
  if n < 128 then [n]
  else if n < 2048 then [192 + n / 64, 128 + n % 64]
  else if n < 65536 then [224 + n / 4096, 128 + n / 64 % 64, 128 + n % 64]
  else [240 + n / 262144, 128 + n / 4096 % 64, 128 + n / 64 % 64, 128 + n % 64]

/-- The byte image of a Rust &str (concatenated UTF-8 of its chars). -/
def strToBytes (s : String) : List Nat :=
  s.data.flatMap (fun c => utf8EncodeCharNat c.toNat)

/-- Is `b` a UTF-8 continuation byte (0x80..0xBF)? -/
def isCont (b : Nat) : Bool := 128 ≤ b && b < 192

/-- Strict UTF-8 decoding of one char from the front of a byte list,
returning the char and the remaining bytes, or none when the front is not
a valid UTF-8 sequence.  Mirrors the acceptance set of
`std::str::from_utf8`. -/
def utf8DecodeChar : List Nat → Option (Char × List Nat)
  | [] => none
  | b :: rest =>
    if b < 128 then some (Char.ofNat b, rest)
    else if b < 194 then none
    else if b < 224 then
      match rest with
      | c1 :: rest1 =>
        if isCont c1 then some (Char.ofNat ((b - 192) * 64 + (c1 - 128)), rest1)
        else none
      | [] => none
    else if b < 240 then
      match rest with
      | c1 :: c2 :: rest2 =>
        if isCont c1 && isCont c2 then
          let n := (b - 224) * 4096 + (c1 - 128) * 64 + (c2 - 128)
          if 2048 ≤ n && (n < 55296 || 57343 < n) then some (Char.ofNat n, rest2)
          else none
        else none
      | _ => none
    else if b < 245 then
      match rest with
      | c1 :: c2 :: c3 :: rest3 =>
        if isCont c1 && isCont c2 && isCont c3 then
          let n := (b - 240) * 262144 + (c1 - 128) * 4096 + (c2 - 128) * 64 + (c3 - 128)
          if 65536 ≤ n && n < 1114112 then some (Char.ofNat n, rest3)
          else none
        else none
      | _ => none
    else none

/-- `utf8DecodeChar` consumes at least one byte. -/
theorem utf8DecodeChar_shrinks : ∀ (l : List Nat) (c : Char) (rest : List Nat),
    utf8DecodeChar l = some (c, rest) → rest.length < l.length := by
  intro l c rest h
  match l with
  | [] => simp [utf8DecodeChar] at h
  | b :: t =>
    simp only [utf8DecodeChar] at h
    split at h
    · cases h; simp
    · split at h
      · cases h
      · split at h
        · match t with
          | [] => cases h
          | c1 :: t1 =>
            simp only at h
            split at h
            · cases h; simp; omega
            · cases h
        · split at h
          · match t with
            | [] => cases h
            | [c1] => cases h
            | c1 :: c2 :: t2 =>
              simp only at h
              split at h
              · split at h
                · cases h; simp; omega
                · cases h
              · cases h
          · split at h
            · match t with
              | [] => cases h
              | [c1] => cases h
              | [c1, c2] => cases h
              | c1 :: c2 :: c3 :: t3 =>
                simp only at h
                split at h
                · split at h
                  · cases h; simp; omega
                  · cases h
                · cases h
            · cases h

/-- Full strict UTF-8 decoding of a byte list into chars, structurally
recursive on a fuel bound; each step consumes at least one byte, so any
fuel at least the length of the list behaves as unbounded recursion
(`utf8DecodeListFuel_mono` below). -/
def utf8DecodeListFuel : Nat → List Nat → Option (List Char)
  | _, [] => some []
  | 0, _ :: _ => none
  | fuel + 1, l =>
    match utf8DecodeChar l with
    | none => none
    | some (c, rest) =>
      match utf8DecodeListFuel fuel rest with
      | none => none
      | some cs => some (c :: cs)

/-- Decoding of a byte list into chars (the model of
`std::str::from_utf8` succeeding), or none when invalid. -/
def utf8DecodeList (l : List Nat) : Option (List Char) :=
  utf8DecodeListFuel l.length l

/-- Model of `std::str::from_utf8`: the decoded string, or none when the
bytes are not valid UTF-8. -/
def utf8DecodeBytes (l : List Nat) : Option String :=
  (utf8DecodeList l).map (fun cs => ⟨cs⟩)

/-! ## Tag vector codec (src/database/tag.rs) -/

/-- Result of running a piece of Rust code that can panic. -/
inductive PanicOr (α : Type) where
  | ok (val : α)
  | panicked
deriving DecidableEq, Repr

/-- The lexeme loop of `tsvector_from_sql` (src/database/tag.rs:137-153),
embedded over the remaining byte list instead of an absolute index: every
access the Rust loop makes is at or after the running index `i`.  One call
decodes `k` remaining lexemes.
  * A NUL scan that runs off the end of the buffer is the Rust
    out-of-bounds panic on `raw[j]`.
  * `std::str::from_utf8(..).expect(..)` on invalid UTF-8 is a panic.
  * `BigEndian::read_u16` on fewer than two remaining bytes is a panic.
  * The skip over `2 * expected_positions` bytes performs no access, so
    overrunning the buffer there is silent, exactly as in Rust. -/
def decodeLexemes : Nat → List Nat → PanicOr (List String)
  | 0, _ => .ok []
  | k + 1, rest =>
    match rest.findIdx? (fun b => b == 0) with
    | none => .panicked
    | some j =>
      match utf8DecodeBytes (rest.take j) with
      | none => .panicked
      | some s =>
        match rest.drop (j + 1) with
        | b0 :: b1 :: rest2 =>
          match decodeLexemes k (rest2.drop ((b0 * 256 + b1) * 2)) with
          | .panicked => .panicked
          | .ok tags => .ok (s :: tags)
        | _ => .panicked

/-- `tsvector_from_sql` from src/database/tag.rs:131-156: reads a 4-byte
big-endian lexeme count and then the lexeme loop.  `BigEndian::read_u32`
on fewer than four bytes is a panic.  The function has no error return in
the source; its only outcomes are a decoded lexeme list or a panic. -/
def tsvector_from_sql (raw : List Nat) : PanicOr (List String) :=
  match raw with
  | b0 :: b1 :: b2 :: b3 :: rest =>
    decodeLexemes (b0 * 16777216 + b1 * 65536 + b2 * 256 + b3) rest
  | _ => .panicked

/-- Split a char list at every comma, keeping empty segments
(so `splitTokens "a,b,".data = [[a],[b],[]]`). -/
def splitTokens : List Char → List (List Char)
  | [] => [[]]
  | c :: cs =>
    if c = ',' then [] :: splitTokens cs
    else
      match splitTokens cs with
      | t :: ts => (c :: t) :: ts
      | [] => [[c]]

/-- Modelled from the spec: the server-side conversion
`to_tsvector('tag_parser', s)` that `NewPost::insert_into` submits its
comma-delimited tag string to (src/database/post.rs:343-350).  The store
is not part of src/; per the spec the `tag_parser` configuration
tokenises on the ingestion delimiter used by the write side (the comma),
drops empty tokens, and a tsvector keeps each distinct lexeme once.  The
resulting lexeme list is what the stored `tag_vector` column holds. -/
def storeLexemes (s : String) : List String :=
  (((splitTokens s.data).filter (fun t => ¬ t.isEmpty)).map (fun t => String.mk t)).dedup

/-- Big-endian bytes of a 16-bit count. -/
def natToBE2 (n : Nat) : List Nat := [n / 256 % 256, n % 256]

/-- Big-endian bytes of a 32-bit count. -/
def natToBE4 (n : Nat) : List Nat :=
  [n / 16777216 % 256, n / 65536 % 256, n / 256 % 256, n % 256]

/-- Modelled from the spec: the packed tsvector wire format produced by
the store when the column is read back (spec 4.1): a 4-byte big-endian
lexeme count, then per lexeme its NUL-terminated UTF-8 bytes followed by
a 2-byte big-endian position count and the position records.  Positions
are not semantically used, so the store image is taken with zero
positions. -/
def packTsvector (lexemes : List String) : List Nat :=
  natToBE4 lexemes.length ++
    lexemes.flatMap (fun s => strToBytes s ++ [0] ++ natToBE2 0)

/-- The comma-delimited tag string built by `NewPost::insert_into`
(src/database/post.rs:346-350): every tag followed by a comma. -/
def encodeTags (tags : List String) : String :=
  ⟨tags.flatMap (fun s => s.data ++ [','])⟩

/-! ## Tag counter operations (src/database/tag.rs) -/

/-- One upsert of `Tag::update_tag_count` (src/database/tag.rs:57-80):
`INSERT INTO tags (name, count) VALUES ($1, 1) ON CONFLICT (name) DO
UPDATE SET count = tags.count+1` for a single tag.  A row whose `name`
matches is incremented, otherwise a fresh row with count 1 appears. -/
def upsertTag : List TagRow → String → List TagRow
  | [], t => [⟨t, 1⟩]
  | r :: rs, t =>
    if r.name = t then ⟨r.name, r.count + 1⟩ :: rs
    else r :: upsertTag rs t

/-- `Tag::update_tag_count` over a tag list: the handler issues the
prepared upsert once per tag. -/
def update_tag_count (rows : List TagRow) (tags : List String) : List TagRow :=
  tags.foldl upsertTag rows

/-- `Tag::update_decrease_counts` (src/database/tag.rs:82-91):
`UPDATE tags SET count = count-1 WHERE name = ANY($1)` - every row whose
name occurs in the list is decremented once. -/
def update_decrease_counts (rows : List TagRow) (tags : List String) : List TagRow :=
  rows.map (fun r => if tags.contains r.name then ⟨r.name, r.count - 1⟩ else r)

/-- The counter value the table holds for a tag name (0 when the tag has
no row, as read through `Tag::select_tag_name`). -/
def tagCount (rows : List TagRow) (t : String) : Int :=
  match rows.find? (fun r => r.name = t) with
  | some r => r.count
  | none => 0

/-! ## Post record operations (src/database/post.rs) -/

/-- `Post::select_post` (src/database/post.rs:95-108):
`SELECT * FROM posts WHERE id=$1 AND is_deleted='false'` through
`query_opt` - the first matching row, or none. -/
def select_post (posts : List PostRow) (id : Int) : Option PostRow :=
  posts.find? (fun p => p.id = id && p.is_deleted = false)

/-- The `query_one` user lookup inside `Post::select_can_delete`
(src/database/post.rs:121-123): `SELECT * FROM users WHERE id=$1`.
`query_one` yields the row when exactly one matches and a postgres error
otherwise. -/
def query_one_user (users : List UserRow) (uid : Int) : Except DatabaseError UserRow :=
  match users.filter (fun u => u.id = uid) with
  | [u] => .ok u
  | _ => .error .postgresErr

/-- `Post::select_can_delete` (src/database/post.rs:110-142): the post
row (`query_opt`, excluding soft-deleted rows) and the user row
(`query_one`) are awaited together with `try_join!`, so an error from
either lookup makes the whole call fail; only then is the post option
inspected.  The flag is `poster == user || perms ∈ {Moderator, Admin}`. -/
def select_can_delete (s : Store) (id : Int) (user : Int) :
    Except DatabaseError (Option (Bool × PostRow)) :=
  let postRow := select_post s.posts id
  match query_one_user s.users user with
  | .error e => .error e
  | .ok userRow =>
    match postRow with
    | some post =>
      if post.poster = user || (userRow.perms = .Moderator || userRow.perms = .Admin) then
        .ok (some (true, post))
      else
        .ok (some (false, post))
    | none => .ok none

/-- `Post::select_is_deleted` (src/database/post.rs:144-157):
`SELECT * FROM posts WHERE is_deleted='true'`. -/
def select_is_deleted (posts : List PostRow) : List PostRow :=
  posts.filter (fun p => p.is_deleted)

/-- `Post::update_is_deleted` (src/database/post.rs:272-286):
`UPDATE posts SET is_deleted=$1 WHERE id=$2`. -/
def update_is_deleted (posts : List PostRow) (id : Int) (flag : Bool) : List PostRow :=
  posts.map (fun p => if p.id = id then { p with is_deleted := flag } else p)

/-- `Post::update_path` (src/database/post.rs:255-270):
`UPDATE posts SET path=$1 WHERE id=$2`. -/
def update_path (posts : List PostRow) (id : Int) (newPath : String) : List PostRow :=
  posts.map (fun p => if p.id = id then { p with path := newPath } else p)

/-- `Post::delete_post_checked` (src/database/post.rs:288-298):
`DELETE FROM posts WHERE id=$1 AND is_deleted = 'true'`, returning the
number of rows removed (the caller compares it with 0) and the remaining
table. -/
def delete_post_checked (posts : List PostRow) (id : Int) : Nat × List PostRow :=
  ((posts.filter (fun p => p.id = id && p.is_deleted)).length,
   posts.filter (fun p => ¬ (p.id = id && p.is_deleted)))

/-- `ts_query_builder` (src/database/post.rs:301-317).  For each tag the
source evaluates `&tag[0..1] == "!"`:
  * on an empty tag the byte slice `0..1` is out of bounds - a panic;
  * when the first char is multi-byte, byte offset 1 is not a char
    boundary - a panic;
  * otherwise the first byte is a one-byte char, compared with `!`.
Exclusion tags lose the leading `!`; each partition is joined with
commas and the trailing comma removed by `String::pop`. -/
def ts_query_builder_go : List String → List Char → List Char → PanicOr (List Char × List Char)
  | [], inc, exc => .ok (inc.dropLast, exc.dropLast)
  | t :: ts, inc, exc =>
    match t.data with
    | [] => .panicked
    | c :: rest =>
      if 128 ≤ c.toNat then .panicked
      else if c = '!' then ts_query_builder_go ts inc (exc ++ rest ++ [','])
      else ts_query_builder_go ts (inc ++ t.data ++ [',']) exc

/-- `ts_query_builder` wrapper returning the include and exclude
expression strings. -/
def ts_query_builder (tags : List String) : PanicOr (String × String) :=
  match ts_query_builder_go tags [] [] with
  | .panicked => .panicked
  | .ok (inc, exc) => .ok (⟨inc⟩, ⟨exc⟩)

/-- Modelled from the spec: the server-side match
`tag_vector @@ plainto_tsquery('tag_parser', q)` used by
`Post::select_fulltext_tags` (src/database/post.rs:185-223).  The store
is not part of src/; per the spec `plainto_tsquery` under the same
`tag_parser` tokenisation turns `q` into the conjunction of its comma
tokens, so a post matches when every token is among its lexemes. -/
def tsMatches (tv : List String) (q : String) : Bool :=
  (((splitTokens q.data).filter (fun t => ¬ t.isEmpty)).map (fun t => String.mk t)).all
    (fun t => tv.contains t)

/-- `PostSorting::to_sql` (src/database/enums.rs:57-66) as a boolean
comparator on rows: each ORDER BY clause is a lexicographic order on the
named column with the id as tiebreaker, ascending or descending. -/
def postLe (sorting : PostSorting) (p q : PostRow) : Bool :=
  match sorting with
  | .DateAscending => p.create_date < q.create_date ||
      (p.create_date = q.create_date && p.id ≤ q.id)
  | .DateDescending => q.create_date < p.create_date ||
      (p.create_date = q.create_date && q.id ≤ p.id)
  | .VoteAscending => p.score < q.score || (p.score = q.score && p.id ≤ q.id)
  | .VoteDescending => q.score < p.score || (p.score = q.score && q.id ≤ p.id)

/-- The sort key realising `postLe` inside the lexicographic order on
`Int × Int`: descending orders negate the key columns. -/
def postKey (sorting : PostSorting) (p : PostRow) : Lex (Int × Int) :=
  match sorting with
  | .DateAscending => toLex (p.create_date, p.id)
  | .DateDescending => toLex (-p.create_date, -p.id)
  | .VoteAscending => toLex (p.score, p.id)
  | .VoteDescending => toLex (-p.score, -p.id)

/-- The WHERE predicate of the three query shapes in
`Post::select_fulltext_tags` (src/database/post.rs:185-223), selected by
emptiness of the include and exclude expressions, plus the
`is_deleted='false'` conjunct shared by all shapes (and by the
`select_fulltext_empty` shape, whose predicate is the last case). -/
def searchPred (t_inc t_exc : String) (p : PostRow) : Bool :=
  (if t_exc.isEmpty then tsMatches p.tag_vector t_inc
   else if t_inc.isEmpty then ¬ tsMatches p.tag_vector t_exc
   else tsMatches p.tag_vector t_inc && ¬ tsMatches p.tag_vector t_exc) &&
  p.is_deleted = false

/-- Modelled from the spec: the rows a `SELECT .. WHERE .. ORDER BY ..`
returns before OFFSET and LIMIT are applied - the matching rows in some
order consistent with the ORDER BY clause.  The embedding returns the
canonical such enumeration (a stable sort); `sortedPages_unique` below
shows the clause admits no other enumeration when ids are distinct. -/
def orderedRows (posts : List PostRow) (t_inc t_exc : String) (sorting : PostSorting) :
    List PostRow :=
  List.insertionSort (fun p q => postLe sorting p q = true)
    (posts.filter (searchPred t_inc t_exc))

/-- `Post::select_fulltext_tags` together with `select_fulltext_empty`
(src/database/post.rs:173-253): no tags runs the empty shape, otherwise
`ts_query_builder` splits the tags (propagating its panic) and the query
shape is chosen from the emptiness of the two expressions.  All shapes
append `OFFSET page*limit LIMIT limit`; `page * limit` is u32
arithmetic, hence the `% 2^32`. -/
def select_fulltext_tags (posts : List PostRow) (tags : List String)
    (page limit : Nat) (sorting : PostSorting) : PanicOr (List PostRow) :=
  if tags.length = 0 then
    .ok (((orderedRows posts "" "" sorting).drop (page * limit % 4294967296)).take limit)
  else
    match ts_query_builder tags with
    | .panicked => .panicked
    | .ok (t_inc, t_exc) =>
      .ok (((orderedRows posts t_inc t_exc sorting).drop (page * limit % 4294967296)).take limit)

/-! ## Page handlers (src/pages/post.rs, src/pages/search.rs) -/

/-- Hex digit char (lowercase), for the `{:02x}` format. -/
def hexDigit (n : Nat) : Char :=
  if n < 10 then Char.ofNat (48 + n) else Char.ofNat (87 + n)

/-- Hex digits of `n`, most significant first; the fuel bounds the digit
count and `n` itself always suffices. -/
def toHexAux : Nat → Nat → List Char → List Char
  | _, 0, acc => acc
  | 0, _ + 1, acc => acc
  | fuel + 1, n + 1, acc => toHexAux fuel ((n + 1) / 16) (hexDigit ((n + 1) % 16) :: acc)

/-- `image_path` (src/pages/post.rs:20-22): `format!("{:02x}", id >> 16)`.
Post ids are store-assigned and nonnegative; for them the arithmetic
shift is division by 2^16, printed as lowercase hex padded to width 2. -/
def image_path (id : Int) : String :=
  let n := (id / 65536).toNat
  let s := if n = 0 then "0" else ⟨toHexAux n n []⟩
  if s.length < 2 then "0" ++ s else s

/-- `format_paths` (src/pages/post.rs:24-35): the image file path
`{root}/img/{subfolder}/{id}-{filename}` and the thumbnail file path
`{root}/tmb/{subfolder}/{id}.jpg`, as PathBuf joins the components. -/
def format_paths (root subfolder : String) (id : Int) (filename : String) : String × String :=
  (root ++ "/img/" ++ subfolder ++ "/" ++ toString id ++ "-" ++ filename,
   root ++ "/tmb/" ++ subfolder ++ "/" ++ toString id ++ ".jpg")

/-- Rust `char::is_whitespace`: the Unicode White_Space property, i.e.
U+0009..U+000D, U+0020, U+0085, U+00A0, U+1680, U+2000..U+200A, U+2028,
U+2029, U+202F, U+205F and U+3000. -/
def rustIsWhitespace (c : Char) : Bool :=
  let n := c.toNat
  (9 ≤ n && n ≤ 13) || n = 32 || n = 133 || n = 160 || n = 5760 ||
  (8192 ≤ n && n ≤ 8202) || n = 8232 || n = 8233 || n = 8239 || n = 8287 ||
  n = 12288

/-- Model of Rust `str::trim`: drop Unicode White_Space from both ends. -/
def trimString (s : String) : String :=
  ⟨((s.data.dropWhile rustIsWhitespace).reverse.dropWhile rustIsWhitespace).reverse⟩

/-- The tag validation loop of `post_upload` (src/pages/post.rs:193-200):
reject with BadTags when any tag contains a `+` or `!` char, otherwise
collect the trimmed tags. -/
def upload_validate_tags : List String → Except APIError (List String)
  | [] => .ok []
  | t :: ts =>
    if t.data.any (fun c => c = '+' || c = '!') then .error .BadTags
    else
      match upload_validate_tags ts with
      | .error e => .error e
      | .ok rest => .ok (trimString t :: rest)

/-- The metadata of a new post that the external collaborators (multipart
parsing, image decoding) hand to the upload handler. -/
structure NewPostMeta where
  filename : String
  ext : ImageExtension
  size : Int
  width : Int
  height : Int
  description : String
  rating : Rating
deriving DecidableEq, Repr

/-- The externally visible steps of `post_upload`, in program order:
database statements of the transaction, filesystem writes, commit. -/
inductive UpEvent where
  | beginTx
  | insertPost
  | updateTagCount
  | updatePath
  | writeImage (path : String)
  | writeThumb (path : String)
  | commitTx
deriving DecidableEq, Repr

/-- Injected filesystem outcome for the two `fs::write` calls. -/
structure FsCtx where
  imgOk : Bool
  tmbOk : Bool
deriving DecidableEq, Repr

/-- Result of the upload handler: the HTTP-level outcome, the store after
the request (an aborted transaction leaves the original store), and the
event trace. -/
structure UploadOutcome where
  result : Except APIError PostRow
  store : Store
  events : List UpEvent
deriving Repr

/-- `post_upload` (src/pages/post.rs:166-263), starting at the already
decoded inputs: validate the tags (BadTags aborts before any store
call); inside one transaction insert the post row (placeholder path
"00", tsvector from the comma-delimited trimmed tags), upsert the tag
counters once per tag and relocate the path to `image_path(id)`; then
write the image and the thumbnail; `trans.commit()` runs last, so a
failed write aborts the transaction (the row vanishes) while the files
written before the failure stay on disk. -/
def post_upload (s : Store) (ta : List String) (meta : NewPostMeta) (uid : Int)
    (fs : FsCtx) (root : String) : UploadOutcome :=
  match upload_validate_tags ta with
  | .error e => ⟨.error e, s, []⟩
  | .ok tags =>
    let post : PostRow :=
      { id := s.nextId, poster := uid,
        tag_vector := storeLexemes (encodeTags tags),
        create_date := 0, modified_date := 0,
        description := some meta.description, rating := meta.rating,
        score := 0, views := 0, source := none,
        filename := meta.filename, path := "00", ext := meta.ext,
        size := meta.size, width := meta.width, height := meta.height,
        is_deleted := false }
    let posts1 := s.posts ++ [post]
    let tags1 := update_tag_count s.tags tags
    let subfolder := image_path post.id
    let posts2 := update_path posts1 post.id subfolder
    let paths := format_paths root subfolder post.id post.filename
    let evs : List UpEvent := [.beginTx, .insertPost, .updateTagCount, .updatePath,
      .writeImage paths.1, .writeThumb paths.2]
    if fs.imgOk && fs.tmbOk then
      ⟨.ok post,
       { s with posts := posts2, tags := tags1, nextId := s.nextId + 1 },
       evs ++ [.commitTx]⟩
    else
      ⟨.error .InternalError, s, evs⟩

/-- `delete_post` (src/pages/post.rs:70-118): negative-id guard, then in
one transaction `select_can_delete`; on an authorised hit set the
soft-delete flag and decrement the tag counters of the decoded tag
vector; every other outcome leaves the store unchanged. -/
def delete_post_step (s : Store) (id : Int) (uid : Int) : Store :=
  if id < 0 then s
  else
    match select_can_delete s id uid with
    | .ok (some (true, post)) =>
      { s with posts := update_is_deleted s.posts id true,
               tags := update_decrease_counts s.tags post.tag_vector }
    | _ => s

/-- File removals performed by the purge handler. -/
inductive PurgeEvent where
  | removeImage (path : String)
  | removeThumb (path : String)
deriving DecidableEq, Repr

/-- The per-post loop of `delete_purge_posts` (src/pages/post.rs:134-151):
for each listed post run the checked delete; when it removed nothing,
continue without touching any file; otherwise remove the image and the
thumbnail at the paths derived from the listed row. -/
def purge_loop (posts : List PostRow) (victims : List PostRow) (root : String) :
    List PostRow × List PurgeEvent :=
  match victims with
  | [] => (posts, [])
  | post :: rest =>
    let step := delete_post_checked posts post.id
    if step.1 = 0 then purge_loop step.2 rest root
    else
      let paths := format_paths root post.path post.id post.filename
      let recur := purge_loop step.2 rest root
      (recur.1, .removeImage paths.1 :: .removeThumb paths.2 :: recur.2)

/-- `delete_purge_posts` (src/pages/post.rs:120-155): Admin only; list
the soft-deleted posts, then run the purge loop over them. -/
def delete_purge_posts (s : Store) (callerPerms : Perms) (root : String) :
    Except APIError (Store × List PurgeEvent) :=
  if callerPerms ≠ .Admin then .error .Auth
  else
    let victims := select_is_deleted s.posts
    let looped := purge_loop s.posts victims root
    .ok ({ s with posts := looped.1 }, looped.2)

/-- `get_post` (src/pages/post.rs:42-68) outcome. -/
inductive GetPostResult where
  | ok (p : PostRow)
  | notFound
  | err (e : APIError)
deriving DecidableEq, Repr

/-- `get_post` (src/pages/post.rs:42-68): ids below zero are rejected
with BadRequestData before the store is consulted; then `select_post`
decides between the 200 and the 404 response. -/
def get_post (s : Store) (id : Int) : GetPostResult :=
  if id < 0 then .err .BadRequestData
  else
    match select_post s.posts id with
    | some p => .ok p
    | none => .notFound

/-- The tag validation loop of `get_search` (src/pages/search.rs:51-58),
with Rust semantics made explicit: the range `0..tags.len()` captures the
original length, so the loop runs that many rounds (the structural fuel
argument, initially `tags.length`); each round indexes `tags[i]` (a panic
when `i` is outside the current, possibly shrunk, vector), rejects
BadTags on any of the four reserved chars, and removes an empty token in
place, after which the loop keeps advancing `i` against the shrunk
vector. -/
def search_validate_loop (tags : List String) (i : Nat) :
    Nat → PanicOr (Except APIError (List String))
  | 0 => .ok (.ok tags)
  | rem + 1 =>
    match tags[i]? with
    | none => .panicked
    | some t =>
      if t.data.any (fun c => c = ' ' || c = '|' || c = '(' || c = ')') then
        .ok (.error .BadTags)
      else if t.isEmpty then search_validate_loop (tags.eraseIdx i) (i + 1) rem
      else search_validate_loop tags (i + 1) rem

/-- Outcome of the search handler. -/
inductive SearchOutcome where
  | ok (posts : List PostRow)
  | err (e : APIError)
  | panicked
deriving DecidableEq, Repr

/-- Store accesses of the search handler. -/
inductive SearchEvent where
  | dbSelect
deriving DecidableEq, Repr

/-- `get_search` (src/pages/search.rs:45-87): run the validation loop,
then the tag-count and page-size guards, and only then the search query
(the db call of the handler; its row set is the `select_fulltext_tags`
shape).  The returned event list records whether the store was
reached. -/
def get_search (s : Store) (tagsJson : List String) (page limit : Nat)
    (sorting : PostSorting) : SearchOutcome × List SearchEvent :=
  match search_validate_loop tagsJson 0 tagsJson.length with
  | .panicked => (.panicked, [])
  | .ok (.error e) => (.err e, [])
  | .ok (.ok tags) =>
    if tags.length > 10 then (.err .TagLimit, [])
    else if limit > 50 then (.err .PageSize, [])
    else
      match select_fulltext_tags s.posts tags page limit sorting with
      | .panicked => (.panicked, [.dbSelect])
      | .ok posts => (.ok posts, [.dbSelect])

/-- The operations of claim C2: user-facing upload and soft delete.  The
filesystem succeeds and the storage root is irrelevant to the tables. -/
inductive Op where
  | upload (ta : List String) (meta : NewPostMeta) (uid : Int)
  | softDelete (id : Int) (uid : Int)

/-- One operation against the store. -/
def stepOp (s : Store) : Op → Store
  | .upload ta meta uid => (post_upload s ta meta uid ⟨true, true⟩ "root").store
  | .softDelete id uid => delete_post_step s id uid

/-- A run of operations from a store. -/
def runOps (s : Store) (ops : List Op) : Store :=
  ops.foldl stepOp s

/-- Does an active (non-soft-deleted) post reference the tag? -/
def refPred (t : String) (p : PostRow) : Bool :=
  ¬ p.is_deleted && p.tag_vector.contains t

/-- The number of active (non-soft-deleted) posts whose tag vector
references a tag. -/
def activeRefs (s : Store) (t : String) : Nat :=
  (s.posts.filter (refPred t)).length


/-! ## Shared lemmas about the row lookups -/

/-- `select_post` finds nothing exactly when no live row has the id. -/
theorem select_post_eq_none_iff (posts : List PostRow) (id : Int) :
    select_post posts id = none ↔ ∀ p ∈ posts, ¬ (p.id = id ∧ p.is_deleted = false) := by
  simp [select_post, List.find?_eq_none]

/-- A row found by `select_post` is a live row of the table with the id. -/
theorem select_post_eq_some (posts : List PostRow) (id : Int) (p : PostRow)
    (h : select_post posts id = some p) :
    p ∈ posts ∧ p.id = id ∧ p.is_deleted = false := by
  have hmem := List.mem_of_find?_eq_some h
  have hpred := List.find?_some h
  simp only [Bool.and_eq_true, decide_eq_true_eq] at hpred
  exact ⟨hmem, hpred.1, hpred.2⟩

/-! ## Claim C9: get_post on negative and nonexistent ids -/

/-- C9 counterexample.  The claim states that for every negative id the
result of fetching a post is not-found (a 404), never an error of another
class.  The handler instead short-circuits ids below zero to
BadRequestData (an HTTP 400 error) before consulting the store. -/
theorem get_post_negative_id_counterexample :
    get_post ⟨[], [], [], 0⟩ (-1) = .err .BadRequestData ∧
    GetPostResult.err .BadRequestData ≠ .notFound := by
  exact ⟨rfl, by decide⟩

/-- C9 amended: fetching a post excludes soft-deleted rows, and a
nonexistent nonnegative id yields not-found; a negative id is rejected
with BadRequestData (a 400-class error) before the lookup. -/
theorem get_post_spec (s : Store) (id : Int) :
    (id < 0 → get_post s id = .err .BadRequestData) ∧
    (0 ≤ id →
      (get_post s id = .notFound ↔
        ∀ p ∈ s.posts, ¬ (p.id = id ∧ p.is_deleted = false))) ∧
    (∀ p, get_post s id = .ok p → p ∈ s.posts ∧ p.id = id ∧ p.is_deleted = false) := by
  refine ⟨fun h => ?_, fun h => ?_, fun p h => ?_⟩
  · simp [get_post, h]
  · have hnn : ¬ id < 0 := by omega
    simp only [get_post, if_neg hnn]
    split
    · rename_i p hp
      constructor
      · intro h2; cases h2
      · intro hall
        rcases select_post_eq_some _ _ _ hp with ⟨hmem, hid, hdel⟩
        exact absurd ⟨hid, hdel⟩ (hall p hmem)
    · rename_i hp
      simp only [select_post_eq_none_iff] at hp
      exact iff_of_true rfl hp
  · simp only [get_post] at h
    split at h
    · cases h
    · split at h
      · rename_i q hq
        cases h
        exact select_post_eq_some _ _ _ hq
      · cases h

/-- C9 witness: the amended theorem applied at a concrete store and id. -/
theorem get_post_spec_witness :
    get_post ⟨[], [], [], 0⟩ 1 = .notFound ↔
      ∀ p ∈ (⟨[], [], [], 0⟩ : Store).posts, ¬ (p.id = 1 ∧ p.is_deleted = false) :=
  (get_post_spec ⟨[], [], [], 0⟩ 1).2.1 (by decide)

/-! ## Claim C4: totality of tag-vector decoding -/

/-- C4 counterexample.  The claim states that a buffer shorter than the
declared structure makes decoding fail with a data-corruption error value
and that decoding never panics.  The buffer [0,0,0,1] declares one lexeme
and ends; the Rust loop indexes past the end of the slice and panics
(`raw[j]`), it does not return an error value. -/
theorem tsvector_truncated_buffer_counterexample :
    tsvector_from_sql [0, 0, 0, 1] = .panicked := by rfl

/-- A successful run of the lexeme loop returns exactly as many lexemes
as it was asked for. -/
theorem decodeLexemes_ok_length :
    ∀ (k : Nat) (rest : List Nat) (tags : List String),
      decodeLexemes k rest = .ok tags → tags.length = k := by
  intro k
  induction k with
  | zero => intro rest tags h; cases h; rfl
  | succ k ih =>
    intro rest tags h
    simp only [decodeLexemes] at h
    split at h
    · cases h
    · split at h
      · cases h
      · split at h
        · split at h
          · cases h
          · rename_i tags' hrec
            cases h
            simpa using ih _ _ hrec
        · cases h

/-- C4 amended: decoding is total, but malformed input (truncated buffer
or invalid UTF-8) makes it panic rather than return an error value; a
successful decode always returns exactly the number of lexemes declared
by the 4-byte big-endian header, so the tag list is never silently
truncated. -/
theorem tsvector_from_sql_no_silent_truncation (raw : List Nat) :
    tsvector_from_sql raw = .panicked ∨
    ∃ b0 b1 b2 b3 rest tags,
      raw = b0 :: b1 :: b2 :: b3 :: rest ∧
      tsvector_from_sql raw = .ok tags ∧
      tags.length = b0 * 16777216 + b1 * 65536 + b2 * 256 + b3 := by
  match raw with
  | [] => left; rfl
  | [b0] => left; rfl
  | [b0, b1] => left; rfl
  | [b0, b1, b2] => left; rfl
  | b0 :: b1 :: b2 :: b3 :: rest =>
    rcases h : tsvector_from_sql (b0 :: b1 :: b2 :: b3 :: rest) with tags | _
    · right
      refine ⟨b0, b1, b2, b3, rest, tags, rfl, rfl, ?_⟩
      have h' : decodeLexemes (b0 * 16777216 + b1 * 65536 + b2 * 256 + b3) rest = .ok tags := h
      exact decodeLexemes_ok_length _ _ _ h'
    · left; rfl

/-! ## Claim C10: search handler on lists with empty tokens -/

/-- C10: the claim (and the evident intent of a request handler) is that
the search entry point never panics on token lists containing an empty
token and instead returns a normal result or a typed error.  The code
violates this: on tags ["", "x"] the loop removes the empty token at
index 0, and the next round indexes the shrunk vector at index 1 against
the captured original length 2 - an out-of-bounds panic.  This theorem
evaluates the handler model at that failing input. -/
theorem get_search_empty_token_panics :
    (get_search ⟨[], [], [], 0⟩ ["", "x"] 0 20 .DateDescending).1 = .panicked := by
  rfl

/-! ## Claim C3: delete authorization lookup -/

/-- C3 counterexample.  The claim states that `select_can_delete` returns
None exactly when the post does not exist, independent of whether the
requesting user exists - the user lookup outcome cannot turn the result
into an error.  But the user lookup is issued with `query_one`, which
fails when no row matches, and `try_join!` propagates that failure: with
an empty store (the post does not exist) the call returns a database
error, not None. -/
theorem select_can_delete_missing_user_counterexample :
    select_can_delete ⟨[], [], [], 0⟩ 1 1 = .error .postgresErr ∧
    Except.error DatabaseError.postgresErr ≠
      (Except.ok none : Except DatabaseError (Option (Bool × PostRow))) := by
  constructor
  · rfl
  · intro h; cases h

/-- A sample post row for concrete instantiations. -/
def demoPost (id poster date score : Int) (tv : List String) (deleted : Bool) : PostRow :=
  { id := id, poster := poster, tag_vector := tv, create_date := date,
    modified_date := 0, description := none, rating := .Safe, score := score,
    views := 0, source := none, filename := "f", path := "00", ext := .Png,
    size := 0, width := 0, height := 0, is_deleted := deleted }

/-- C3 amended: when the requesting user exists (exactly one user row),
`select_can_delete` returns None exactly when no live post has the id,
and an authorised hit flags `allowed=true` exactly when the requester is
the poster or has Moderator or Admin permissions; when the user row is
missing, the call fails with an error regardless of the post lookup. -/
theorem select_can_delete_spec (s : Store) (id uid : Int) :
    (s.users.filter (fun u => u.id = uid) = [] →
       select_can_delete s id uid = .error .postgresErr) ∧
    (∀ u, s.users.filter (fun v => v.id = uid) = [u] →
      ((select_can_delete s id uid = .ok none ↔
          ∀ p ∈ s.posts, ¬ (p.id = id ∧ p.is_deleted = false)) ∧
       (∀ b p, select_can_delete s id uid = .ok (some (b, p)) →
          select_post s.posts id = some p ∧
          (b = true ↔ (p.poster = uid ∨ u.perms = .Moderator ∨ u.perms = .Admin))))) := by
  constructor
  · intro hnone
    simp only [select_can_delete, query_one_user, hnone]
  · intro u hu
    have hq : query_one_user s.users uid = .ok u := by
      simp only [query_one_user, hu]
    rcases hp : select_post s.posts id with _ | post
    · have hres : select_can_delete s id uid = .ok none := by
        simp only [select_can_delete, hq, hp]
      rw [hres]
      constructor
      · simp only [select_post_eq_none_iff] at hp
        exact iff_of_true rfl hp
      · intro b p h
        cases h
    · rcases select_post_eq_some _ _ _ hp with ⟨hmem, hid, hdel⟩
      have hres : select_can_delete s id uid =
          if (decide (post.poster = uid) ||
              (decide (u.perms = Perms.Moderator) || decide (u.perms = Perms.Admin))) = true then
            .ok (some (true, post))
          else
            .ok (some (false, post)) := by
        simp only [select_can_delete, hq, hp]
      by_cases hcond :
          (decide (post.poster = uid) ||
            (decide (u.perms = Perms.Moderator) || decide (u.perms = Perms.Admin))) = true
      · rw [if_pos hcond] at hres
        rw [hres]
        simp only [Bool.or_eq_true, decide_eq_true_eq] at hcond
        constructor
        · constructor
          · intro h2; cases h2
          · intro hall
            exact absurd ⟨hid, hdel⟩ (hall post hmem)
        · intro b p h
          cases h
          exact ⟨rfl, iff_of_true rfl (by tauto)⟩
      · rw [if_neg hcond] at hres
        rw [hres]
        simp only [Bool.or_eq_true, decide_eq_true_eq, not_or] at hcond
        constructor
        · constructor
          · intro h2; cases h2
          · intro hall
            exact absurd ⟨hid, hdel⟩ (hall post hmem)
        · intro b p h
          cases h
          refine ⟨rfl, iff_of_false (by simp) ?_⟩
          tauto

/-- C3 witness: the amended theorem applied at a concrete store with one
Admin user and one live post owned by someone else. -/
theorem select_can_delete_spec_witness :
    select_can_delete ⟨[demoPost 9 5 0 0 [] false],
        [⟨7, "m", none, "p", "pic", .Admin⟩], [], 10⟩ 9 7 = .ok none ↔
      ∀ p ∈ ([demoPost 9 5 0 0 [] false] : List PostRow),
        ¬ (p.id = 9 ∧ p.is_deleted = false) :=
  ((select_can_delete_spec ⟨[demoPost 9 5 0 0 [] false],
      [⟨7, "m", none, "p", "pic", .Admin⟩], [], 10⟩ 9 7).2
    ⟨7, "m", none, "p", "pic", .Admin⟩ (by decide)).1

/-! ## Claim C6: reserved-character validation on search and upload -/

/-- The only error the upload tag loop produces is BadTags. -/
theorem upload_validate_tags_error_eq :
    ∀ (ta : List String) (e : APIError),
      upload_validate_tags ta = .error e → e = .BadTags := by
  intro ta
  induction ta with
  | nil => intro e h; cases h
  | cons t ts ih =>
    intro e h
    simp only [upload_validate_tags] at h
    split at h
    · cases h; rfl
    · rcases hrec : upload_validate_tags ts with e' | rest <;> simp only [hrec] at h
      · cases h; exact ih _ hrec
      · cases h

/-- The upload path rejects exactly the tags containing `+` or `!`. -/
theorem upload_validate_tags_error_iff (ta : List String) :
    upload_validate_tags ta = .error .BadTags ↔
      ∃ t ∈ ta, ∃ c ∈ t.data, c = '+' ∨ c = '!' := by
  induction ta with
  | nil =>
    simp only [upload_validate_tags]
    constructor
    · intro h; cases h
    · rintro ⟨t, ht, _⟩; cases ht
  | cons t ts ih =>
    simp only [upload_validate_tags]
    split
    · rename_i hbad
      simp only [List.any_eq_true, Bool.or_eq_true, decide_eq_true_eq] at hbad
      rcases hbad with ⟨c, hc, hor⟩
      exact iff_of_true rfl ⟨t, List.mem_cons_self t ts, c, hc, hor⟩
    · rename_i hgood
      rcases hrec : upload_validate_tags ts with e | rest <;> simp only [hrec]
      · have he : e = .BadTags := upload_validate_tags_error_eq ts e hrec
        subst he
        apply iff_of_true rfl
        rcases ih.mp hrec with ⟨t', ht', hc⟩
        exact ⟨t', List.mem_cons_of_mem t ht', hc⟩
      · constructor
        · intro h; cases h
        · rintro ⟨t', ht', c, hc, hor⟩
          rcases List.mem_cons.mp ht' with rfl | hmem
          · exact absurd
              (by simp only [List.any_eq_true, Bool.or_eq_true, decide_eq_true_eq]
                  exact ⟨c, hc, hor⟩) hgood
          · exact absurd (ih.mpr ⟨t', hmem, c, hc, hor⟩) (by rw [hrec]; intro h; cases h)

/-- On token lists without empty tokens the Rust loop never removes in
place, so it scans every token: from round `i` with `rem` rounds left it
flags BadTags exactly when a reserved char occurs in the remaining
tokens, and otherwise passes the list through unchanged. -/
theorem search_validate_loop_noempty (tags : List String)
    (hne : ∀ t ∈ tags, t.isEmpty = false) :
    ∀ (rem i : Nat), i + rem = tags.length →
      ((search_validate_loop tags i rem = .ok (.error .BadTags) ↔
        ∃ t ∈ tags.drop i, ∃ c ∈ t.data, c = ' ' ∨ c = '|' ∨ c = '(' ∨ c = ')') ∧
       (search_validate_loop tags i rem = .ok (.error .BadTags) ∨
        search_validate_loop tags i rem = .ok (.ok tags))) := by
  intro rem
  induction rem with
  | zero =>
    intro i hi
    have hd : tags.drop i = [] := List.drop_eq_nil_of_le (by omega)
    simp only [search_validate_loop, hd]
    constructor
    · constructor
      · intro h
        simp at h
      · rintro ⟨t, ht, _⟩; cases ht
    · right; trivial
  | succ rem ih =>
    intro i hi
    have hilt : i < tags.length := by omega
    have hget : tags[i]? = some tags[i] := List.getElem?_eq_getElem hilt
    have hdropc : tags.drop i = tags[i] :: tags.drop (i + 1) :=
      List.drop_eq_getElem_cons hilt
    have hmem : tags[i] ∈ tags := List.getElem_mem hilt
    simp only [search_validate_loop, hget]
    split
    · rename_i hbad
      simp only [List.any_eq_true, Bool.or_eq_true, decide_eq_true_eq] at hbad
      rcases hbad with ⟨c, hc, hor⟩
      constructor
      · apply iff_of_true rfl
        refine ⟨tags[i], by rw [hdropc]; exact List.mem_cons_self _ _, c, hc, by tauto⟩
      · left; rfl
    · rename_i hbad
      rw [if_neg (by simp [hne tags[i] hmem])]
      have hrec := ih (i + 1) (by omega)
      rcases hrec with ⟨hiff, hdisj⟩
      constructor
      · rw [hiff, hdropc]
        constructor
        · rintro ⟨t, ht, hc⟩
          exact ⟨t, List.mem_cons_of_mem _ ht, hc⟩
        · rintro ⟨t, ht, c, hc, hor⟩
          rcases List.mem_cons.mp ht with rfl | hmem'
          · exact absurd
              (by simp only [List.any_eq_true, Bool.or_eq_true, decide_eq_true_eq]
                  exact ⟨c, hc, by tauto⟩) hbad
          · exact ⟨t, hmem', c, hc, hor⟩
      · exact hdisj

/-- C6 counterexample.  The claim states that on every path where
user-supplied tag tokens reach the store, a token containing a reserved
char (space among them) is rejected with BadTags before any store call.
But the upload path only checks for `+` and `!`: the tag "a b" passes its
validation, and the handler goes on to issue the insert (the insertPost
event), with no BadTags error. -/
theorem upload_space_tag_counterexample :
    (post_upload ⟨[], [], [], 0⟩ ["a b"] ⟨"f", .Png, 1, 1, 1, "", .Safe⟩ 1
        ⟨true, true⟩ "rt").result ≠ .error .BadTags ∧
    UpEvent.insertPost ∈
      (post_upload ⟨[], [], [], 0⟩ ["a b"] ⟨"f", .Png, 1, 1, 1, "", .Safe⟩ 1
        ⟨true, true⟩ "rt").events := by
  constructor
  · intro h
    cases h
  · decide

/-- C6 amended: the two validation paths differ.  The search path
rejects exactly the tokens containing one of space, `|`, `(`, `)` (on
lists without empty tokens, which the loop scans fully) and does so
before its store query; the upload path rejects exactly the tokens
containing `+` or `!` - so the four reserved chars of the claim pass the
upload path - and a BadTags rejection there likewise precedes any store
statement. -/
theorem tag_validation_reserved_chars (ta tags : List String) :
    (upload_validate_tags ta = .error .BadTags ↔
      ∃ t ∈ ta, ∃ c ∈ t.data, c = '+' ∨ c = '!') ∧
    ((∀ t ∈ tags, t.isEmpty = false) →
      ((search_validate_loop tags 0 tags.length = .ok (.error .BadTags) ↔
         ∃ t ∈ tags, ∃ c ∈ t.data, c = ' ' ∨ c = '|' ∨ c = '(' ∨ c = ')') ∧
       (∀ (s : Store) (page limit : Nat) (sorting : PostSorting),
         search_validate_loop tags 0 tags.length = .ok (.error .BadTags) →
           get_search s tags page limit sorting = (.err .BadTags, [])))) ∧
    (∀ (s : Store) (meta : NewPostMeta) (uid : Int) (fs : FsCtx) (root : String),
       upload_validate_tags ta = .error .BadTags →
         post_upload s ta meta uid fs root = ⟨.error .BadTags, s, []⟩) := by
  refine ⟨upload_validate_tags_error_iff ta, fun hne => ⟨?_, ?_⟩, ?_⟩
  · have := (search_validate_loop_noempty tags hne tags.length 0 (by omega)).1
    simpa using this
  · intro s page limit sorting hv
    simp only [get_search, hv]
  · intro s meta uid fs root hv
    simp only [post_upload, hv]

/-- C6 witness: the amended theorem applied at the concrete token lists
["x"] (upload) and ["a b"] (search), discharging the no-empty-token
hypothesis. -/
theorem tag_validation_reserved_chars_witness :
    search_validate_loop ["a b"] 0 (List.length ["a b"]) = .ok (.error .BadTags) ↔
      ∃ t ∈ ["a b"], ∃ c ∈ t.data, c = ' ' ∨ c = '|' ∨ c = '(' ∨ c = ')' :=
  ((tag_validation_reserved_chars ["x"] ["a b"]).2.1 (by decide)).1

/-! ## Claim C1: ordering of file writes and commit in post_upload -/

/-- C1 counterexample.  The claim states files are written only after
the relational transaction has committed and never before.  In the
handler the two `fs::write` calls are awaited before `trans.commit()`:
the success trace places both write events before the commit event, and
when the image write fails the trace contains the write events with no
commit at all - a file is written although the commit never happened. -/
theorem upload_files_written_before_commit_counterexample :
    (post_upload ⟨[], [], [], 0⟩ ["a"] ⟨"f", .Png, 1, 1, 1, "", .Safe⟩ 1
        ⟨true, true⟩ "rt").events =
      [.beginTx, .insertPost, .updateTagCount, .updatePath,
       .writeImage "rt/img/00/0-f", .writeThumb "rt/tmb/00/0.jpg"] ++ [.commitTx] ∧
    (post_upload ⟨[], [], [], 0⟩ ["a"] ⟨"f", .Png, 1, 1, 1, "", .Safe⟩ 1
        ⟨false, true⟩ "rt").events.contains (.writeImage "rt/img/00/0-f") = true ∧
    (post_upload ⟨[], [], [], 0⟩ ["a"] ⟨"f", .Png, 1, 1, 1, "", .Safe⟩ 1
        ⟨false, true⟩ "rt").events.contains .commitTx = false := by
  decide

/-- C1 amended: within one upload the relational statements (insert,
tag-counter upsert, path relocation) come first, the image and thumbnail
writes follow, and the commit runs last and only when both writes
succeed; when a write fails the transaction aborts (the store is left as
before) although the write events have already happened.  A BadTags
rejection produces no events at all. -/
theorem post_upload_event_order (s : Store) (ta : List String) (meta : NewPostMeta)
    (uid : Int) (fs : FsCtx) (root : String) :
    (∀ e, upload_validate_tags ta = .error e →
       post_upload s ta meta uid fs root = ⟨.error e, s, []⟩) ∧
    (∀ tags, upload_validate_tags ta = .ok tags →
      (fs.imgOk = true → fs.tmbOk = true →
        (post_upload s ta meta uid fs root).events =
          [.beginTx, .insertPost, .updateTagCount, .updatePath,
           .writeImage (format_paths root (image_path s.nextId) s.nextId meta.filename).1,
           .writeThumb (format_paths root (image_path s.nextId) s.nextId meta.filename).2,
           .commitTx]) ∧
      ((fs.imgOk = false ∨ fs.tmbOk = false) →
        (post_upload s ta meta uid fs root).events =
          [.beginTx, .insertPost, .updateTagCount, .updatePath,
           .writeImage (format_paths root (image_path s.nextId) s.nextId meta.filename).1,
           .writeThumb (format_paths root (image_path s.nextId) s.nextId meta.filename).2] ∧
        (post_upload s ta meta uid fs root).result = .error .InternalError ∧
        (post_upload s ta meta uid fs root).store = s)) := by
  constructor
  · intro e hv
    simp only [post_upload, hv]
  · intro tags hv
    constructor
    · intro h1 h2
      simp only [post_upload, hv, h1, h2, Bool.and_self, if_true]
      rfl
    · intro hfail
      have hcond : (fs.imgOk && fs.tmbOk) = false := by
        rcases hfail with h | h <;> simp [h]
      simp only [post_upload, hv, hcond, Bool.false_eq_true, if_false]
      refine ⟨?_, ?_, ?_⟩ <;> trivial

/-- C1 witness: the amended theorem applied at a concrete upload with a
failing image write. -/
theorem post_upload_event_order_witness :
    (post_upload ⟨[], [], [], 0⟩ ["a"] ⟨"f", .Png, 1, 1, 1, "", .Safe⟩ 1
        ⟨false, true⟩ "rt").events =
      [.beginTx, .insertPost, .updateTagCount, .updatePath,
       .writeImage (format_paths "rt" (image_path 0) 0 "f").1,
       .writeThumb (format_paths "rt" (image_path 0) 0 "f").2] ∧
    (post_upload ⟨[], [], [], 0⟩ ["a"] ⟨"f", .Png, 1, 1, 1, "", .Safe⟩ 1
        ⟨false, true⟩ "rt").result = .error .InternalError ∧
    (post_upload ⟨[], [], [], 0⟩ ["a"] ⟨"f", .Png, 1, 1, 1, "", .Safe⟩ 1
        ⟨false, true⟩ "rt").store = ⟨[], [], [], 0⟩ :=
  ((post_upload_event_order ⟨[], [], [], 0⟩ ["a"] ⟨"f", .Png, 1, 1, 1, "", .Safe⟩ 1
      ⟨false, true⟩ "rt").2 ["a"] (by rfl)).2 (Or.inl rfl)

/-! ## Claim C7: guarded purge -/

/-- Rows surviving the purge loop are rows of the table, and a surviving
soft-deleted row cannot carry the id of any processed victim. -/
theorem purge_loop_mem (root : String) :
    ∀ (victims posts : List PostRow) (p : PostRow),
      p ∈ (purge_loop posts victims root).1 →
      p ∈ posts ∧ (p.is_deleted = true → ∀ v ∈ victims, v.id ≠ p.id) := by
  intro victims
  induction victims with
  | nil =>
    intro posts p hp
    simp only [purge_loop] at hp
    exact ⟨hp, fun _ v hv => absurd hv (List.not_mem_nil v)⟩
  | cons v rest ih =>
    intro posts p hp
    have hstep : ∀ q ∈ (delete_post_checked posts v.id).2,
        q ∈ posts ∧ ¬ (q.id = v.id ∧ q.is_deleted = true) := by
      intro q hq
      rw [delete_post_checked, List.mem_filter] at hq
      refine ⟨hq.1, ?_⟩
      have h2 := hq.2
      simp only [decide_eq_true_eq, Bool.and_eq_true] at h2
      exact h2
    have hrec : p ∈ (purge_loop (delete_post_checked posts v.id).2 rest root).1 := by
      simp only [purge_loop] at hp
      split at hp
      · exact hp
      · exact hp
    rcases ih _ p hrec with ⟨hmem2, hdel2⟩
    rcases hstep p hmem2 with ⟨hmemposts, hnot⟩
    refine ⟨hmemposts, fun hdel w hw => ?_⟩
    rcases List.mem_cons.mp hw with rfl | hw'
    · intro hideq
      exact hnot ⟨hideq.symm, hdel⟩
    · exact hdel2 hdel w hw'

/-- C7: the checked delete `DELETE .. WHERE id=$1 AND is_deleted='true'`
removes a row only when its soft-delete flag is set (never an active
row), reports whether a row was actually removed, and a second run on
the same id removes nothing and changes nothing; at the handler level a
second purge pass right after a first one performs no row deletion and
no file removal and still succeeds. -/
theorem purge_spec (posts : List PostRow) (id : Int) (s : Store) (root : String) :
    ((delete_post_checked posts id).1 ≠ 0 ↔
      ∃ p ∈ posts, p.id = id ∧ p.is_deleted = true) ∧
    (∀ p ∈ posts, p.is_deleted = false → p ∈ (delete_post_checked posts id).2) ∧
    ((delete_post_checked (delete_post_checked posts id).2 id).1 = 0 ∧
     (delete_post_checked (delete_post_checked posts id).2 id).2 =
        (delete_post_checked posts id).2) ∧
    (∀ s' evs, delete_purge_posts s .Admin root = .ok (s', evs) →
       delete_purge_posts s' .Admin root = .ok (s', [])) := by
  have hnone0 : ∀ q ∈ (delete_post_checked posts id).2,
      ¬ q.id = id ∨ q.is_deleted = false := by
    intro q hq
    rw [delete_post_checked, List.mem_filter] at hq
    simpa using hq.2
  have hnone : ∀ q ∈ (delete_post_checked posts id).2,
      q.id = id → q.is_deleted = false := by
    intro q hq h1
    rcases hnone0 q hq with h | h
    · exact absurd h1 h
    · exact h
  refine ⟨?_, ?_, ⟨?_, ?_⟩, ?_⟩
  · show (posts.filter (fun p => p.id = id && p.is_deleted)).length ≠ 0 ↔ _
    rw [Ne, List.length_eq_zero, List.filter_eq_nil_iff]
    push_neg
    constructor
    · rintro ⟨p, hp, hpred⟩
      simp only [Bool.and_eq_true, decide_eq_true_eq] at hpred
      exact ⟨p, hp, hpred⟩
    · rintro ⟨p, hp, h1, h2⟩
      exact ⟨p, hp, by simp [h1, h2]⟩
  · intro p hp hdel
    show p ∈ posts.filter _
    rw [List.mem_filter]
    exact ⟨hp, by simp [hdel]⟩
  · show (List.filter _ (delete_post_checked posts id).2).length = 0
    rw [List.length_eq_zero, List.filter_eq_nil_iff]
    intro q hq
    simp only [Bool.and_eq_true, decide_eq_true_eq, not_and]
    intro h1 h2
    exact absurd h2 (by simp [hnone q hq h1])
  · show List.filter _ (delete_post_checked posts id).2 = _
    apply List.filter_eq_self.mpr
    intro q hq
    simp only [decide_eq_true_eq, Bool.and_eq_true, not_and]
    intro h1 h2
    exact absurd h2 (by simp [hnone q hq h1])
  · intro s' evs h
    have hred : delete_purge_posts s .Admin root =
        .ok ({ s with posts := (purge_loop s.posts (select_is_deleted s.posts) root).1 },
             (purge_loop s.posts (select_is_deleted s.posts) root).2) := by
      rfl
    rw [hred] at h
    injection h with h
    have hs' : s' = { s with posts := (purge_loop s.posts (select_is_deleted s.posts) root).1 } := by
      cases h; rfl
    have hvs : select_is_deleted s'.posts = [] := by
      rw [select_is_deleted, List.filter_eq_nil_iff]
      intro p hp
      rw [hs'] at hp
      rcases purge_loop_mem root (select_is_deleted s.posts) s.posts p hp with ⟨hmem, hvic⟩
      intro hdel
      have hpv : p ∈ select_is_deleted s.posts := by
        rw [select_is_deleted, List.mem_filter]
        exact ⟨hmem, by simp [hdel]⟩
      exact hvic hdel p hpv rfl
    simp [delete_purge_posts, hvs, purge_loop]

/-- C7 witness: the theorem applied at a store holding one soft-deleted
post; the second purge pass on the already-purged store is a no-op. -/
theorem purge_spec_witness :
    delete_purge_posts ⟨[], [], [], 1⟩ .Admin "rt" = .ok (⟨[], [], [], 1⟩, []) :=
  (purge_spec [] 0 ⟨[demoPost 0 1 0 0 ["a"] true], [], [], 1⟩ "rt").2.2.2
    ⟨[], [], [], 1⟩
    [.removeImage "rt/img/00/0-f", .removeThumb "rt/tmb/00/0.jpg"]
    (by rfl)

/-! ## Claim C5: round trip through the packed tsvector format -/

/-- The scalar value of a Char is a valid Unicode scalar value, in Nat
form. -/
theorem char_valid_nat (c : Char) :
    c.toNat < 55296 ∨ (57343 < c.toNat ∧ c.toNat < 1114112) := by
  rcases c.valid with h | ⟨h1, h2⟩
  · exact Or.inl (UInt32.toNat_lt_of_lt (by decide) h)
  · exact Or.inr ⟨UInt32.lt_toNat_of_lt (by decide) h1, UInt32.toNat_lt_of_lt (by decide) h2⟩

/-- Encoding a scalar value yields at least one byte. -/
theorem utf8EncodeCharNat_length_pos (n : Nat) : 0 < (utf8EncodeCharNat n).length := by
  unfold utf8EncodeCharNat
  split_ifs <;> simp

/-- Encoding a nonzero scalar value yields no NUL byte. -/
theorem utf8EncodeCharNat_ne_zero (n : Nat) (hn : n ≠ 0) :
    ∀ b ∈ utf8EncodeCharNat n, b ≠ 0 := by
  unfold utf8EncodeCharNat
  split_ifs with hc1 hc2 hc3 <;> intro b hb <;> simp only [List.mem_cons,
    List.mem_singleton, List.not_mem_nil, or_false] at hb
  · omega
  · rcases hb with rfl | rfl <;> omega
  · rcases hb with rfl | rfl | rfl <;> omega
  · rcases hb with rfl | rfl | rfl | rfl <;> omega

/-- Decoding inverts encoding char by char: the decoder consumes exactly
the encoded bytes of the char and returns it. -/
theorem utf8DecodeChar_encode (c : Char) (rest : List Nat) :
    utf8DecodeChar (utf8EncodeCharNat c.toNat ++ rest) = some (c, rest) := by
  have hv := char_valid_nat c
  by_cases h1 : c.toNat < 128
  · have he : utf8EncodeCharNat c.toNat = [c.toNat] := by
      simp [utf8EncodeCharNat, if_pos h1]
    rw [he]
    simp only [List.cons_append, List.nil_append]
    simp only [utf8DecodeChar, if_pos h1]
    rw [Char.ofNat_toNat]
  · by_cases h2 : c.toNat < 2048
    · have he : utf8EncodeCharNat c.toNat = [192 + c.toNat / 64, 128 + c.toNat % 64] := by
        rw [utf8EncodeCharNat, if_neg h1, if_pos h2]
      rw [he]
      simp only [List.cons_append, List.nil_append]
      have hb1 : ¬ (192 + c.toNat / 64 < 128) := by omega
      have hb2 : ¬ (192 + c.toNat / 64 < 194) := by omega
      have hb3 : 192 + c.toNat / 64 < 224 := by omega
      simp only [utf8DecodeChar, if_neg hb1, if_neg hb2, if_pos hb3]
      have hc1 : isCont (128 + c.toNat % 64) = true := by
        simp only [isCont, Bool.and_eq_true, decide_eq_true_eq]
        omega
      rw [if_pos hc1]
      have harg : (192 + c.toNat / 64 - 192) * 64 + (128 + c.toNat % 64 - 128) = c.toNat := by
        omega
      rw [harg, Char.ofNat_toNat]
    · by_cases h3 : c.toNat < 65536
      · have he : utf8EncodeCharNat c.toNat =
            [224 + c.toNat / 4096, 128 + c.toNat / 64 % 64, 128 + c.toNat % 64] := by
          rw [utf8EncodeCharNat, if_neg h1, if_neg h2, if_pos h3]
        rw [he]
        simp only [List.cons_append, List.nil_append]
        have hb1 : ¬ (224 + c.toNat / 4096 < 128) := by omega
        have hb2 : ¬ (224 + c.toNat / 4096 < 194) := by omega
        have hb3 : ¬ (224 + c.toNat / 4096 < 224) := by omega
        have hb4 : 224 + c.toNat / 4096 < 240 := by omega
        simp only [utf8DecodeChar, if_neg hb1, if_neg hb2, if_neg hb3, if_pos hb4]
        have hc1 : (isCont (128 + c.toNat / 64 % 64) && isCont (128 + c.toNat % 64)) = true := by
          simp only [isCont, Bool.and_eq_true, decide_eq_true_eq]
          omega
        rw [if_pos hc1]
        have harg : (224 + c.toNat / 4096 - 224) * 4096 +
            (128 + c.toNat / 64 % 64 - 128) * 64 + (128 + c.toNat % 64 - 128) = c.toNat := by
          omega
        rw [harg]
        have hcond : (decide (2048 ≤ c.toNat) &&
            (decide (c.toNat < 55296) || decide (57343 < c.toNat))) = true := by
          simp only [Bool.and_eq_true, Bool.or_eq_true, decide_eq_true_eq]
          omega
        rw [if_pos hcond, Char.ofNat_toNat]
      · have he : utf8EncodeCharNat c.toNat =
            [240 + c.toNat / 262144, 128 + c.toNat / 4096 % 64,
             128 + c.toNat / 64 % 64, 128 + c.toNat % 64] := by
          rw [utf8EncodeCharNat, if_neg h1, if_neg h2, if_neg h3]
        rw [he]
        simp only [List.cons_append, List.nil_append]
        have hlt : c.toNat < 1114112 := by omega
        have hb1 : ¬ (240 + c.toNat / 262144 < 128) := by omega
        have hb2 : ¬ (240 + c.toNat / 262144 < 194) := by omega
        have hb3 : ¬ (240 + c.toNat / 262144 < 224) := by omega
        have hb4 : ¬ (240 + c.toNat / 262144 < 240) := by omega
        have hb5 : 240 + c.toNat / 262144 < 245 := by omega
        simp only [utf8DecodeChar, if_neg hb1, if_neg hb2, if_neg hb3, if_neg hb4, if_pos hb5]
        have hc1 : (isCont (128 + c.toNat / 4096 % 64) &&
            isCont (128 + c.toNat / 64 % 64) && isCont (128 + c.toNat % 64)) = true := by
          simp only [isCont, Bool.and_eq_true, decide_eq_true_eq]
          omega
        rw [if_pos hc1]
        have harg : (240 + c.toNat / 262144 - 240) * 262144 +
            (128 + c.toNat / 4096 % 64 - 128) * 4096 +
            (128 + c.toNat / 64 % 64 - 128) * 64 + (128 + c.toNat % 64 - 128) = c.toNat := by
          omega
        rw [harg]
        have hcond : (decide (65536 ≤ c.toNat) && decide (c.toNat < 1114112)) = true := by
          simp only [Bool.and_eq_true, decide_eq_true_eq]
          omega
        rw [if_pos hcond, Char.ofNat_toNat]

/-- Decoding inverts encoding on whole char lists, for any fuel at least
the byte count. -/
theorem utf8DecodeListFuel_encode :
    ∀ (cs : List Char) (fuel : Nat),
      (cs.flatMap (fun c => utf8EncodeCharNat c.toNat)).length ≤ fuel →
      utf8DecodeListFuel fuel (cs.flatMap (fun c => utf8EncodeCharNat c.toNat)) = some cs := by
  intro cs
  induction cs with
  | nil =>
    intro fuel _
    cases fuel <;> rfl
  | cons c cs ih =>
    intro fuel hf
    rw [List.flatMap_cons] at hf ⊢
    have hpos := utf8EncodeCharNat_length_pos c.toNat
    have hstep := utf8DecodeChar_encode c (cs.flatMap (fun c => utf8EncodeCharNat c.toNat))
    rcases he : utf8EncodeCharNat c.toNat with _ | ⟨b, bs⟩
    · rw [he] at hpos
      cases hpos
    · rw [he] at hstep hf
      rcases fuel with _ | fuel
      · exfalso
        rw [List.length_append] at hf
        simp only [List.length_cons] at hf
        omega
      · rw [List.cons_append]
        rw [List.cons_append] at hstep
        have hrest : (cs.flatMap (fun c => utf8EncodeCharNat c.toNat)).length ≤ fuel := by
          rw [List.length_append] at hf
          simp only [List.length_cons] at hf
          omega
        simp only [utf8DecodeListFuel, hstep, ih fuel hrest]

/-- The byte image of a string decodes back to the string. -/
theorem utf8DecodeBytes_strToBytes (t : String) :
    utf8DecodeBytes (strToBytes t) = some t := by
  unfold utf8DecodeBytes utf8DecodeList strToBytes
  rw [utf8DecodeListFuel_encode t.data _ (Nat.le_refl _)]
  rfl

/-- No byte of the byte image of a string without NUL chars is zero. -/
theorem strToBytes_ne_zero (t : String) (h : ∀ c ∈ t.data, c.toNat ≠ 0) :
    ∀ b ∈ strToBytes t, b ≠ 0 := by
  intro b hb
  rw [strToBytes, List.mem_flatMap] at hb
  rcases hb with ⟨c, hc, hbc⟩
  exact utf8EncodeCharNat_ne_zero c.toNat (h c hc) b hbc

/-- findIdx? over a zero-free list followed by a literal zero finds the
boundary. -/
theorem findIdx?_zero_boundary :
    ∀ (xs : List Nat), (∀ b ∈ xs, b ≠ 0) → ∀ (ys : List Nat) (i : Nat),
      List.findIdx? (fun b => b == 0) (xs ++ 0 :: ys) i = some (i + xs.length) := by
  intro xs
  induction xs with
  | nil =>
    intro _ ys i
    simp [List.findIdx?_cons]
  | cons x xs ih =>
    intro hne ys i
    rw [List.cons_append, List.findIdx?_cons]
    rw [if_neg (by simp [hne x (List.mem_cons_self x xs)])]
    rw [ih (fun b hb => hne b (List.mem_cons_of_mem x hb)) ys (i + 1)]
    congr 1
    simp only [List.length_cons]
    omega

/-- The lexeme loop of `tsvector_from_sql` inverts the packed body. -/
theorem decodeLexemes_pack :
    ∀ (lexemes : List String),
      (∀ t ∈ lexemes, ∀ c ∈ t.data, c.toNat ≠ 0) →
      decodeLexemes lexemes.length
        (lexemes.flatMap (fun s => strToBytes s ++ [0] ++ natToBE2 0)) = .ok lexemes := by
  intro lexemes
  induction lexemes with
  | nil => intro _; rfl
  | cons t rest ih =>
    intro hnul
    rw [List.flatMap_cons, List.length_cons]
    have hb : strToBytes t ++ [0] ++ natToBE2 0 ++
        rest.flatMap (fun s => strToBytes s ++ [0] ++ natToBE2 0) =
        strToBytes t ++ 0 :: 0 :: 0 ::
          rest.flatMap (fun s => strToBytes s ++ [0] ++ natToBE2 0) := by
      simp [natToBE2, List.append_assoc]
    rw [hb]
    simp only [decodeLexemes]
    rw [findIdx?_zero_boundary (strToBytes t)
      (strToBytes_ne_zero t (hnul t (List.mem_cons_self t rest)))
      (0 :: 0 :: rest.flatMap (fun s => strToBytes s ++ [0] ++ natToBE2 0)) 0]
    simp only [Nat.zero_add]
    have htake : (strToBytes t ++ 0 :: 0 :: 0 ::
        rest.flatMap (fun s => strToBytes s ++ [0] ++ natToBE2 0)).take (strToBytes t).length =
        strToBytes t := List.take_left _ _
    rw [htake, utf8DecodeBytes_strToBytes t]
    have hdrop : (strToBytes t ++ 0 :: 0 :: 0 ::
        rest.flatMap (fun s => strToBytes s ++ [0] ++ natToBE2 0)).drop
          ((strToBytes t).length + 1) =
        0 :: 0 :: rest.flatMap (fun s => strToBytes s ++ [0] ++ natToBE2 0) := by
      have : strToBytes t ++ 0 :: 0 :: 0 ::
          rest.flatMap (fun s => strToBytes s ++ [0] ++ natToBE2 0) =
          (strToBytes t ++ [0]) ++ 0 :: 0 ::
            rest.flatMap (fun s => strToBytes s ++ [0] ++ natToBE2 0) := by
        simp [List.append_assoc]
      rw [this]
      have hlen : (strToBytes t ++ [0]).length = (strToBytes t).length + 1 := by
        simp
      rw [← hlen, List.drop_left]
    rw [hdrop]
    simp only [Nat.mul_zero, Nat.zero_mul, Nat.add_zero, Nat.zero_add, List.drop_zero]
    rw [ih (fun s hs => hnul s (List.mem_cons_of_mem t hs))]

/-- `tsvector_from_sql` inverts `packTsvector` on lexeme lists that fit
the 32-bit count and contain no NUL chars. -/
theorem tsvector_from_sql_pack (lexemes : List String)
    (hlen : lexemes.length < 4294967296)
    (hnul : ∀ t ∈ lexemes, ∀ c ∈ t.data, c.toNat ≠ 0) :
    tsvector_from_sql (packTsvector lexemes) = .ok lexemes := by
  rw [packTsvector, natToBE4]
  simp only [List.cons_append, List.nil_append]
  rw [tsvector_from_sql]
  have hcount : lexemes.length / 16777216 % 256 * 16777216 +
      lexemes.length / 65536 % 256 * 65536 +
      lexemes.length / 256 % 256 * 256 + lexemes.length % 256 = lexemes.length := by
    omega
  rw [hcount]
  exact decodeLexemes_pack lexemes hnul

/-- Splitting after a comma-free segment peels the segment off. -/
theorem splitTokens_append_comma :
    ∀ (l : List Char), ',' ∉ l → ∀ (r : List Char),
      splitTokens (l ++ ',' :: r) = l :: splitTokens r := by
  intro l
  induction l with
  | nil =>
    intro _ r
    simp [splitTokens]
  | cons c cs ih =>
    intro hmem r
    rw [List.cons_append, splitTokens]
    rw [if_neg (fun hc => hmem (by rw [← hc]; exact List.mem_cons_self c cs))]
    rw [ih (fun hm => hmem (List.mem_cons_of_mem c hm)) r]

/-- Splitting the concatenation of comma-terminated comma-free segments
recovers the segments (with the trailing empty token of the final
comma). -/
theorem splitTokens_flat :
    ∀ (ls : List (List Char)), (∀ l ∈ ls, ',' ∉ l) →
      splitTokens (ls.flatMap (fun l => l ++ [','])) = ls ++ [[]] := by
  intro ls
  induction ls with
  | nil => intro _; rfl
  | cons l ls ih =>
    intro h
    rw [List.flatMap_cons]
    have hshape : (l ++ [',']) ++ ls.flatMap (fun l => l ++ [',']) =
        l ++ ',' :: ls.flatMap (fun l => l ++ [',']) := by
      simp [List.append_assoc]
    rw [hshape, splitTokens_append_comma l (h l (List.mem_cons_self l ls))]
    rw [ih (fun x hx => h x (List.mem_cons_of_mem l hx))]
    rfl

/-- For nonempty comma-free tags, the stored lexeme list of the
comma-delimited tag string is the deduplicated tag list. -/
theorem storeLexemes_encodeTags (tags : List String)
    (hne : ∀ t ∈ tags, t ≠ "") (hcomma : ∀ t ∈ tags, ',' ∉ t.data) :
    storeLexemes (encodeTags tags) = tags.dedup := by
  rw [storeLexemes, encodeTags]
  have hdata : (String.mk (tags.flatMap (fun s => s.data ++ [',']))).data =
      (tags.map String.data).flatMap (fun l => l ++ [',']) := by
    show tags.flatMap (fun s => s.data ++ [',']) = _
    rw [List.flatMap_map]
  rw [hdata, splitTokens_flat (tags.map String.data)
    (by intro l hl
        rcases List.mem_map.mp hl with ⟨t, ht, rfl⟩
        exact hcomma t ht)]
  rw [List.filter_append]
  have h1 : (tags.map String.data).filter (fun t => ¬ t.isEmpty) = tags.map String.data := by
    apply List.filter_eq_self.mpr
    intro l hl
    rcases List.mem_map.mp hl with ⟨t, ht, rfl⟩
    simp only [decide_eq_true_eq, Bool.not_eq_true']
    cases hd : t.data with
    | nil => exact absurd (String.ext hd) (hne t ht)
    | cons a l => simp
  have h2 : List.filter (fun t => ¬ t.isEmpty) [([] : List Char)] = [] := by rfl
  rw [h1, h2, List.append_nil, List.map_map]
  have h3 : ((fun t => String.mk t) ∘ String.data) = id := by
    funext t
    rfl
  rw [h3, List.map_id]

/-- C5 counterexample.  The claim excludes only space, `+`, `!`, `|`,
`(`, `)` from tags, but the write side delimits tags with commas, so a
comma inside a tag is reinterpreted as a delimiter by the store: the
single tag "a,b" (legal per the claim) comes back as the two tags "a"
and "b", not as the original set. -/
theorem tsvector_roundtrip_comma_counterexample :
    tsvector_from_sql (packTsvector (storeLexemes (encodeTags ["a,b"]))) = .ok ["a", "b"] ∧
    ¬ ("a,b" ∈ (["a", "b"] : List String)) := by
  constructor
  · rfl
  · decide

/-- C5 amended: for tag lists whose tags are nonempty and avoid the six
claimed delimiter chars and additionally the comma (the actual storage
delimiter) and the NUL char (the packed-format terminator), and whose
length fits the 32-bit lexeme count, encoding to the store and decoding
the packed tsvector yields exactly the original tag set. -/
theorem tsvector_roundtrip (tags : List String)
    (hlen : tags.length < 4294967296)
    (hval : ∀ t ∈ tags, t ≠ "" ∧ ∀ c ∈ t.data,
      c ≠ ' ' ∧ c ≠ '+' ∧ c ≠ '!' ∧ c ≠ '|' ∧ c ≠ '(' ∧ c ≠ ')' ∧
      c ≠ ',' ∧ c.toNat ≠ 0) :
    ∃ decoded, tsvector_from_sql (packTsvector (storeLexemes (encodeTags tags))) =
        .ok decoded ∧ ∀ t, t ∈ decoded ↔ t ∈ tags := by
  rw [storeLexemes_encodeTags tags (fun t ht => (hval t ht).1)
    (fun t ht hc => (((hval t ht).2 ',' hc).2.2.2.2.2.2.1) rfl)]
  refine ⟨tags.dedup, tsvector_from_sql_pack tags.dedup ?_ ?_, ?_⟩
  · have hsub := List.dedup_sublist tags
    have := hsub.length_le
    omega
  · intro t ht c hc
    exact ((hval t (List.mem_dedup.mp ht)).2 c hc).2.2.2.2.2.2.2
  · intro t
    exact List.mem_dedup

/-- C5 witness: the amended theorem applied at the concrete tag list
["b", "a"]. -/
theorem tsvector_roundtrip_witness :
    ∃ decoded, tsvector_from_sql (packTsvector (storeLexemes (encodeTags ["b", "a"]))) =
        .ok decoded ∧ ∀ t, t ∈ decoded ↔ t ∈ (["b", "a"] : List String) :=
  tsvector_roundtrip ["b", "a"] (by decide) (by decide)

/-! ## Claim C2: tag counter invariant -/

/-- The counter value read over a cons cell. -/
theorem tagCount_cons (r : TagRow) (rs : List TagRow) (t : String) :
    tagCount (r :: rs) t = if r.name = t then r.count else tagCount rs t := by
  by_cases h : r.name = t
  · simp [tagCount, List.find?_cons, h]
  · simp [tagCount, List.find?_cons, h]

/-- One upsert adds one to the counter of its tag and nothing else. -/
theorem tagCount_upsertTag (rows : List TagRow) (u t : String) :
    tagCount (upsertTag rows u) t = tagCount rows t + (if u = t then 1 else 0) := by
  induction rows with
  | nil =>
    by_cases h : u = t
    · simp [upsertTag, tagCount, List.find?_cons, h]
    · simp [upsertTag, tagCount, List.find?_cons, h]
  | cons r rs ih =>
    rw [upsertTag]
    by_cases hru : r.name = u
    · rw [if_pos hru, tagCount_cons, tagCount_cons]
      by_cases hrt : r.name = t
      · rw [if_pos hrt, if_pos hrt, if_pos (by rw [← hru]; exact hrt)]
      · rw [if_neg hrt, if_neg hrt, if_neg (by rw [← hru]; exact hrt)]
        omega
    · rw [if_neg hru, tagCount_cons, tagCount_cons]
      by_cases hrt : r.name = t
      · rw [if_pos hrt, if_pos hrt, if_neg (by rw [← hrt]; intro hh; exact hru hh.symm)]
        omega
      · rw [if_neg hrt, if_neg hrt, ih]

/-- The per-tag upsert loop adds the occurrence count of each tag. -/
theorem tagCount_update_tag_count :
    ∀ (ts : List String) (rows : List TagRow) (t : String),
      tagCount (update_tag_count rows ts) t = tagCount rows t + (ts.count t : Int) := by
  intro ts
  induction ts with
  | nil => intro rows t; simp [update_tag_count]
  | cons u ts ih =>
    intro rows t
    show tagCount (update_tag_count (upsertTag rows u) ts) t = _
    rw [ih, tagCount_upsertTag]
    rw [List.count_cons]
    by_cases h : u = t
    · simp [h]
      omega
    · have hb : (u == t) = false := by simp [h]
      simp [hb, h]

/-- Upserting preserves and creates counter rows. -/
theorem hasRow_upsertTag (rows : List TagRow) (u t : String) :
    (∃ r ∈ upsertTag rows u, r.name = t) ↔ (∃ r ∈ rows, r.name = t) ∨ u = t := by
  induction rows with
  | nil =>
    simp only [upsertTag, List.exists_mem_cons_iff]
    constructor
    · rintro (h | ⟨r, hr, _⟩)
      · exact Or.inr h
      · cases hr
    · rintro (⟨r, hr, _⟩ | h)
      · cases hr
      · exact Or.inl h
  | cons r rs ih =>
    rw [upsertTag]
    by_cases hru : r.name = u
    · rw [if_pos hru]
      subst hru
      constructor
      · rintro ⟨x, hx, hname⟩
        rcases List.mem_cons.mp hx with rfl | hx'
        · exact Or.inl ⟨r, List.mem_cons_self r rs, hname⟩
        · exact Or.inl ⟨x, List.mem_cons_of_mem r hx', hname⟩
      · rintro (⟨x, hx, hname⟩ | heq)
        · rcases List.mem_cons.mp hx with rfl | hx'
          · exact ⟨TagRow.mk x.name (x.count + 1), List.mem_cons_self _ _, hname⟩
          · exact ⟨x, List.mem_cons_of_mem _ hx', hname⟩
        · exact ⟨TagRow.mk r.name (r.count + 1), List.mem_cons_self _ _, heq⟩
    · rw [if_neg hru]
      constructor
      · rintro ⟨x, hx, hname⟩
        rcases List.mem_cons.mp hx with rfl | hx'
        · exact Or.inl ⟨x, List.mem_cons_self x rs, hname⟩
        · rcases ih.mp ⟨x, hx', hname⟩ with ⟨y, hy, hny⟩ | heq
          · exact Or.inl ⟨y, List.mem_cons_of_mem r hy, hny⟩
          · exact Or.inr heq
      · rintro (⟨x, hx, hname⟩ | heq)
        · rcases List.mem_cons.mp hx with rfl | hx'
          · exact ⟨x, List.mem_cons_self x _, hname⟩
          · rcases ih.mpr (Or.inl ⟨x, hx', hname⟩) with ⟨y, hy, hny⟩
            exact ⟨y, List.mem_cons_of_mem r hy, hny⟩
        · rcases ih.mpr (Or.inr heq) with ⟨y, hy, hny⟩
          exact ⟨y, List.mem_cons_of_mem r hy, hny⟩

/-- The upsert loop preserves and creates counter rows. -/
theorem hasRow_update_tag_count :
    ∀ (ts : List String) (rows : List TagRow) (t : String),
      (∃ r ∈ update_tag_count rows ts, r.name = t) ↔
        (∃ r ∈ rows, r.name = t) ∨ t ∈ ts := by
  intro ts
  induction ts with
  | nil =>
    intro rows t
    simp [update_tag_count]
  | cons u ts ih =>
    intro rows t
    show (∃ r ∈ update_tag_count (upsertTag rows u) ts, r.name = t) ↔ _
    rw [ih, hasRow_upsertTag]
    simp only [List.mem_cons]
    constructor
    · rintro ((h | rfl) | h)
      · exact Or.inl h
      · exact Or.inr (Or.inl rfl)
      · exact Or.inr (Or.inr h)
    · rintro (h | (rfl | h))
      · exact Or.inl (Or.inl h)
      · exact Or.inl (Or.inr rfl)
      · exact Or.inr h

/-- The bulk decrement subtracts one from the counter of a tag exactly
when the tag has a row and occurs in the list. -/
theorem tagCount_update_decrease_counts (ts : List String) :
    ∀ (rows : List TagRow) (t : String),
      tagCount (update_decrease_counts rows ts) t =
        if (∃ r ∈ rows, r.name = t) ∧ t ∈ ts then tagCount rows t - 1
        else tagCount rows t := by
  intro rows
  induction rows with
  | nil =>
    intro t
    simp [update_decrease_counts, tagCount]
  | cons r rs ih =>
    intro t
    show tagCount ((if ts.contains r.name = true then TagRow.mk r.name (r.count - 1) else r) ::
      update_decrease_counts rs ts) t = _
    have hshape : (if ts.contains r.name = true then TagRow.mk r.name (r.count - 1) else r).name
        = r.name := by split <;> rfl
    rw [tagCount_cons, hshape]
    by_cases hrt : r.name = t
    · subst hrt
      rw [if_pos rfl]
      by_cases hmem : r.name ∈ ts
      · have hc : ts.contains r.name = true := List.elem_iff.mpr hmem
        rw [if_pos hc]
        rw [if_pos ⟨⟨r, List.mem_cons_self r rs, rfl⟩, hmem⟩]
        rw [tagCount_cons, if_pos rfl]
      · have hc : ¬ ts.contains r.name = true := by
          rw [List.elem_iff]
          exact hmem
        rw [if_neg hc]
        rw [if_neg (fun hand => hmem hand.2)]
        rw [tagCount_cons, if_pos rfl]
    · rw [if_neg hrt, ih]
      have hcond : ((∃ r2 ∈ r :: rs, r2.name = t) ∧ t ∈ ts) ↔
          ((∃ r2 ∈ rs, r2.name = t) ∧ t ∈ ts) := by
        constructor
        · rintro ⟨⟨r2, hr2, hn2⟩, hts⟩
          rcases List.mem_cons.mp hr2 with rfl | hr2'
          · exact absurd hn2 hrt
          · exact ⟨⟨r2, hr2', hn2⟩, hts⟩
        · rintro ⟨⟨r2, hr2, hn2⟩, hts⟩
          exact ⟨⟨r2, List.mem_cons_of_mem r hr2, hn2⟩, hts⟩
      by_cases hand : (∃ r2 ∈ rs, r2.name = t) ∧ t ∈ ts
      · rw [if_pos hand, if_pos (hcond.mpr hand), tagCount_cons, if_neg hrt]
      · rw [if_neg hand, if_neg (fun hh => hand (hcond.mp hh)), tagCount_cons, if_neg hrt]

/-- The bulk decrement never adds or removes counter rows. -/
theorem hasRow_update_decrease_counts (rows : List TagRow) (ts : List String) (t : String) :
    (∃ r ∈ update_decrease_counts rows ts, r.name = t) ↔ ∃ r ∈ rows, r.name = t := by
  unfold update_decrease_counts
  constructor
  · rintro ⟨r, hr, hname⟩
    rcases List.mem_map.mp hr with ⟨r0, hr0, rfl⟩
    refine ⟨r0, hr0, ?_⟩
    rw [← hname]
    split <;> rfl
  · rintro ⟨r, hr, hname⟩
    refine ⟨if ts.contains r.name = true then TagRow.mk r.name (r.count - 1) else r,
      List.mem_map.mpr ⟨r, hr, rfl⟩, ?_⟩
    rw [← hname]
    split <;> rfl

/-- Unfolding of the reference predicate. -/
theorem refPred_iff (t : String) (p : PostRow) :
    refPred t p = true ↔ p.is_deleted = false ∧ t ∈ p.tag_vector := by
  simp [refPred, List.elem_iff]

/-- The reference predicate ignores every field but the deletion flag
and the tag vector. -/
theorem refPred_congr (t : String) (p q : PostRow)
    (h1 : p.is_deleted = q.is_deleted) (h2 : p.tag_vector = q.tag_vector) :
    refPred t p = refPred t q := by
  simp [refPred, h1, h2]

/-- Filtering a mapped list whose mapping preserves the predicate. -/
theorem length_filter_map_eq (g : PostRow → PostRow) (pred : PostRow → Bool)
    (l : List PostRow) (h : ∀ p ∈ l, pred (g p) = pred p) :
    ((l.map g).filter pred).length = (l.filter pred).length := by
  rw [List.filter_map, List.length_map]
  congr 1
  exact List.filter_congr h

/-- A successful upload validation returns the trimmed input tags. -/
theorem upload_validate_tags_ok :
    ∀ (ta tags : List String), upload_validate_tags ta = .ok tags →
      tags = ta.map trimString := by
  intro ta
  induction ta with
  | nil => intro tags h; cases h; rfl
  | cons t ts ih =>
    intro tags h
    simp only [upload_validate_tags] at h
    split at h
    · cases h
    · rcases hrec : upload_validate_tags ts with e | rest <;> simp only [hrec] at h
      · cases h
      · cases h
        rw [List.map_cons, ← ih rest hrec]

/-- The induction invariant of claim C2: the counters match the active
reference counts, post ids are distinct and below the id sequence, and
every referenced tag has a counter row. -/
def GoodStore (s : Store) : Prop :=
  (∀ t, tagCount s.tags t = (activeRefs s t : Int)) ∧
  (s.posts.map (fun p => p.id)).Nodup ∧
  (∀ p ∈ s.posts, p.id < s.nextId) ∧
  (∀ p ∈ s.posts, ∀ t ∈ p.tag_vector, ∃ r ∈ s.tags, r.name = t)

/-- Inserting a fresh active post and upserting its (duplicate-free) tag
list preserves the invariant; the path relocation is irrelevant to it. -/
theorem goodStore_insert (s : Store) (post : PostRow) (tags : List String) (np : String)
    (hgood : GoodStore s) (hid : post.id = s.nextId) (hdel : post.is_deleted = false)
    (htv : post.tag_vector = tags) (hnodup : tags.Nodup) :
    GoodStore ⟨update_path (s.posts ++ [post]) s.nextId np, s.users,
      update_tag_count s.tags tags, s.nextId + 1⟩ := by
  rcases hgood with ⟨hc, hnd, hb, hr⟩
  have hgpred : ∀ t, ∀ p ∈ s.posts ++ [post],
      refPred t (if p.id = s.nextId then { p with path := np } else p) = refPred t p := by
    intro t p _
    by_cases hp : p.id = s.nextId
    · rw [if_pos hp]
      exact refPred_congr t _ _ rfl rfl
    · rw [if_neg hp]
  have hgid : ∀ p : PostRow,
      (if p.id = s.nextId then { p with path := np } else p).id = p.id := by
    intro p
    by_cases hp : p.id = s.nextId
    · rw [if_pos hp]
    · rw [if_neg hp]
  have hgtv : ∀ p : PostRow,
      (if p.id = s.nextId then { p with path := np } else p).tag_vector = p.tag_vector := by
    intro p
    by_cases hp : p.id = s.nextId
    · rw [if_pos hp]
    · rw [if_neg hp]
  refine ⟨?_, ?_, ?_, ?_⟩
  · intro t
    show tagCount (update_tag_count s.tags tags) t = _
    rw [tagCount_update_tag_count]
    have hrefs : ((update_path (s.posts ++ [post]) s.nextId np).filter (refPred t)).length =
        activeRefs s t + (if t ∈ tags then 1 else 0) := by
      rw [update_path, length_filter_map_eq _ _ _ (hgpred t)]
      rw [List.filter_append, List.length_append]
      congr 1
      by_cases hmem : t ∈ tags
      · have hpt : refPred t post = true := (refPred_iff t post).mpr ⟨hdel, htv ▸ hmem⟩
        simp [hpt, hmem]
      · have hpt : refPred t post = false := by
          rw [← Bool.not_eq_true, refPred_iff]
          rintro ⟨_, hmm⟩
          exact hmem (htv ▸ hmm)
        simp [hpt, hmem]
    show _ = ((activeRefs ⟨update_path (s.posts ++ [post]) s.nextId np, s.users,
      update_tag_count s.tags tags, s.nextId + 1⟩ t : Nat) : Int)
    rw [show activeRefs ⟨update_path (s.posts ++ [post]) s.nextId np, s.users,
      update_tag_count s.tags tags, s.nextId + 1⟩ t =
      ((update_path (s.posts ++ [post]) s.nextId np).filter (refPred t)).length from rfl]
    rw [hrefs, hc t]
    by_cases hmem : t ∈ tags
    · rw [List.count_eq_one_of_mem hnodup hmem, if_pos hmem]
      push_cast
      omega
    · rw [List.count_eq_zero_of_not_mem hmem, if_neg hmem]
      push_cast
      omega
  · show ((update_path (s.posts ++ [post]) s.nextId np).map (fun p => p.id)).Nodup
    rw [update_path, List.map_map]
    have hcomp : ((fun p => p.id) ∘
        fun p => if p.id = s.nextId then { p with path := np } else p) =
        fun (p : PostRow) => p.id := by
      funext p
      exact hgid p
    rw [hcomp, List.map_append]
    apply List.Nodup.append hnd (by simp)
    intro a ha hb2
    simp only [List.map_cons, List.map_nil, List.mem_singleton] at hb2
    rcases List.mem_map.mp ha with ⟨q, hq, rfl⟩
    have := hb q hq
    rw [hb2, hid] at this
    omega
  · intro p hp
    show p.id < s.nextId + 1
    rcases List.mem_map.mp hp with ⟨q, hq, rfl⟩
    rw [hgid q]
    rcases List.mem_append.mp hq with hql | hqr
    · have := hb q hql
      omega
    · rcases List.mem_singleton.mp hqr with rfl
      rw [hid]
      omega
  · intro p hp t ht
    rcases List.mem_map.mp hp with ⟨q, hq, rfl⟩
    rw [hgtv q] at ht
    rcases List.mem_append.mp hq with hql | hqr
    · exact (hasRow_update_tag_count tags s.tags t).mpr (Or.inl (hr q hql t ht))
    · rcases List.mem_singleton.mp hqr with rfl
      exact (hasRow_update_tag_count tags s.tags t).mpr (Or.inr (htv ▸ ht))

/-- A hit of `select_can_delete` is exactly the post that the live-post
lookup finds (helper shared by the soft-delete analysis). -/
theorem select_can_delete_post (s : Store) (id uid : Int) (b : Bool) (p : PostRow)
    (h : select_can_delete s id uid = .ok (some (b, p))) :
    select_post s.posts id = some p := by
  rw [select_can_delete] at h
  rcases hq : query_one_user s.users uid with e | u <;> rw [hq] at h
  · cases h
  · rcases hp : select_post s.posts id with _ | post <;> simp only [hp] at h
    · cases h
    · split at h <;> (cases h; rfl)

/-- An upload preserves the invariant when its trimmed tag list is
duplicate-free and its tags are nonempty and comma-free. -/
theorem goodStore_upload (s : Store) (ta : List String) (meta : NewPostMeta) (uid : Int)
    (root : String) (fs : FsCtx) (hgood : GoodStore s)
    (hnodup : (ta.map trimString).Nodup)
    (hta : ∀ t ∈ ta.map trimString, t ≠ "" ∧ ',' ∉ t.data) :
    GoodStore (post_upload s ta meta uid fs root).store := by
  rcases hv : upload_validate_tags ta with e | tags
  · have hst : (post_upload s ta meta uid fs root).store = s := by
      simp [post_upload, hv]
    rw [hst]
    exact hgood
  · have htags : tags = ta.map trimString := upload_validate_tags_ok ta tags hv
    have hnodup' : tags.Nodup := by rw [htags]; exact hnodup
    have hta' : ∀ t ∈ tags, t ≠ "" ∧ ',' ∉ t.data := by rw [htags]; exact hta
    have hdedup : storeLexemes (encodeTags tags) = tags := by
      rw [storeLexemes_encodeTags tags (fun t ht => (hta' t ht).1)
        (fun t ht => (hta' t ht).2)]
      exact List.dedup_eq_self.mpr hnodup'
    by_cases hfs : (fs.imgOk && fs.tmbOk) = true
    · have hst : (post_upload s ta meta uid fs root).store =
          ⟨update_path (s.posts ++ [⟨s.nextId, uid, tags, 0, 0, some meta.description,
            meta.rating, 0, 0, none, meta.filename, "00", meta.ext, meta.size,
            meta.width, meta.height, false⟩]) s.nextId (image_path s.nextId), s.users,
            update_tag_count s.tags tags, s.nextId + 1⟩ := by
        simp [post_upload, hv, hdedup, hfs]
      rw [hst]
      exact goodStore_insert s _ tags _ hgood rfl rfl rfl hnodup'
    · have hst : (post_upload s ta meta uid fs root).store = s := by
        simp only [post_upload, hv]
        rw [if_neg hfs]
      rw [hst]
      exact hgood

/-- A user-facing soft delete preserves the invariant. -/
theorem goodStore_softDelete (s : Store) (id uid : Int) (hgood : GoodStore s) :
    GoodStore (delete_post_step s id uid) := by
  rw [delete_post_step]
  split
  · exact hgood
  split
  · rename_i post heq
    rcases hgood with ⟨hc, hnd, hb, hr⟩
    have hp : select_post s.posts id = some post := select_can_delete_post s id uid true post heq
    rcases select_post_eq_some s.posts id post hp with ⟨hmem, hpid, hpdel⟩
    obtain ⟨l1, l2, hsplit⟩ := List.append_of_mem hmem
    rw [hsplit, List.map_append, List.map_cons] at hnd
    rcases List.nodup_append.mp hnd with ⟨hnd1, hnd2, hdisj⟩
    have h2 : ∀ q ∈ l2, q.id ≠ post.id := by
      intro q hq habs
      exact (List.nodup_cons.mp hnd2).1 (habs ▸ List.mem_map_of_mem (fun p => p.id) hq)
    have h1 : ∀ q ∈ l1, q.id ≠ post.id := by
      intro q hq habs
      exact hdisj (List.mem_map_of_mem (fun p => p.id) hq)
        (habs ▸ List.mem_cons_self post.id _)
    have hupd : update_is_deleted s.posts id true =
        l1 ++ { post with is_deleted := true } :: l2 := by
      rw [hsplit, update_is_deleted, List.map_append, List.map_cons]
      congr 1
      · rw [List.map_congr_left (fun q hq => if_neg (by
          rw [← hpid]; exact h1 q hq))]
        simp
      · congr 1
        · exact if_pos hpid
        · rw [List.map_congr_left (fun q hq => if_neg (by
            rw [← hpid]; exact h2 q hq))]
          simp
    refine ⟨?_, ?_, ?_, ?_⟩
    · intro t
      show tagCount (update_decrease_counts s.tags post.tag_vector) t = _
      rw [tagCount_update_decrease_counts]
      have hrefs0 : activeRefs s t = (l1.filter (refPred t)).length +
          ((if refPred t post then 1 else 0) + (l2.filter (refPred t)).length) := by
        show (s.posts.filter (refPred t)).length = _
        rw [hsplit, List.filter_append, List.length_append, List.filter_cons]
        congr 1
        split
        · simp only [List.length_cons]
          omega
        · simp
      have hrefs1 : ((update_is_deleted s.posts id true).filter (refPred t)).length =
          (l1.filter (refPred t)).length + (l2.filter (refPred t)).length := by
        rw [hupd, List.filter_append, List.length_append, List.filter_cons]
        have hfalse : refPred t { post with is_deleted := true } = false := by
          rw [← Bool.not_eq_true, refPred_iff]
          rintro ⟨habs, _⟩
          cases habs
        rw [if_neg (by rw [hfalse]; intro hh; cases hh)]
      show _ = ((((update_is_deleted s.posts id true).filter (refPred t)).length : Nat) : Int)
      rw [hrefs1]
      by_cases hmemtv : t ∈ post.tag_vector
      · have hrow : ∃ r ∈ s.tags, r.name = t := hr post hmem t hmemtv
        rw [if_pos ⟨hrow, hmemtv⟩, hc t, hrefs0]
        have hptrue : refPred t post = true := (refPred_iff t post).mpr ⟨hpdel, hmemtv⟩
        rw [if_pos hptrue]
        push_cast
        omega
      · rw [if_neg (fun hand => hmemtv hand.2), hc t, hrefs0]
        have hpfalse : refPred t post = false := by
          rw [← Bool.not_eq_true, refPred_iff]
          rintro ⟨_, habs⟩
          exact hmemtv habs
        rw [if_neg (by simp [hpfalse])]
        push_cast
        omega
    · show ((update_is_deleted s.posts id true).map (fun p => p.id)).Nodup
      rw [hupd, List.map_append, List.map_cons]
      exact List.nodup_append.mpr ⟨hnd1, hnd2, hdisj⟩
    · intro p hp
      show p.id < s.nextId
      rw [hupd] at hp
      rcases List.mem_append.mp hp with hpl | hpr
      · exact hb p (by rw [hsplit]; exact List.mem_append.mpr (Or.inl hpl))
      · rcases List.mem_cons.mp hpr with rfl | hpl2
        · show post.id < s.nextId
          exact hb post hmem
        · exact hb p (by
            rw [hsplit]
            exact List.mem_append.mpr (Or.inr (List.mem_cons_of_mem post hpl2)))
    · intro p hp t ht
      show ∃ r ∈ update_decrease_counts s.tags post.tag_vector, r.name = t
      rw [hasRow_update_decrease_counts]
      rw [hupd] at hp
      rcases List.mem_append.mp hp with hpl | hpr
      · exact hr p (by rw [hsplit]; exact List.mem_append.mpr (Or.inl hpl)) t ht
      · rcases List.mem_cons.mp hpr with rfl | hpl2
        · exact hr post hmem t ht
        · exact hr p (by
            rw [hsplit]
            exact List.mem_append.mpr (Or.inr (List.mem_cons_of_mem post hpl2))) t ht
  · exact hgood

/-- The invariant is preserved along any operation sequence whose
uploads carry duplicate-free, nonempty, comma-free trimmed tag lists. -/
theorem goodStore_runOps :
    ∀ (ops : List Op) (s : Store), GoodStore s →
      (∀ op ∈ ops, ∀ ta meta uid, op = Op.upload ta meta uid →
        (ta.map trimString).Nodup ∧ ∀ t ∈ ta.map trimString, t ≠ "" ∧ ',' ∉ t.data) →
      GoodStore (runOps s ops) := by
  intro ops
  induction ops with
  | nil =>
    intro s hs _
    exact hs
  | cons op ops ih =>
    intro s hs hops
    show GoodStore (runOps (stepOp s op) ops)
    apply ih
    · cases op with
      | upload ta meta uid =>
        rcases hops _ (List.mem_cons_self _ _) ta meta uid rfl with ⟨hn, hv⟩
        exact goodStore_upload s ta meta uid "root" ⟨true, true⟩ hs hn hv
      | softDelete id uid =>
        exact goodStore_softDelete s id uid hs
    · intro op' hop' ta meta uid heq
      exact hops op' (List.mem_cons_of_mem op hop') ta meta uid heq

/-- C2 counterexample.  The claim quantifies over any sequence of upload
and soft-delete operations, but an upload whose tag list repeats a tag
(allowed by the upload validation, which only rejects `+` and `!`)
upserts the counter once per occurrence while the stored tsvector keeps
the lexeme once: after uploading with tags ["a", "a"] the counter of "a"
is 2 although exactly one active post references it. -/
theorem tag_counter_duplicate_counterexample :
    tagCount (runOps ⟨[], [], [], 0⟩
      [.upload ["a", "a"] ⟨"f", .Png, 1, 1, 1, "", .Safe⟩ 1]).tags "a" = 2 ∧
    activeRefs (runOps ⟨[], [], [], 0⟩
      [.upload ["a", "a"] ⟨"f", .Png, 1, 1, 1, "", .Safe⟩ 1]) "a" = 1 := by
  constructor
  · rfl
  · rfl

/-- C2 amended: after any sequence of uploads and soft deletes in which
every upload carries a duplicate-free list of (trimmed) nonempty,
comma-free tags, every tag counter equals the number of currently active
posts whose tag vector references that tag.  Duplicate or comma-bearing
tags in one upload break the correspondence. -/
theorem tag_counter_invariant (users : List UserRow) (ops : List Op)
    (hops : ∀ op ∈ ops, ∀ ta meta uid, op = Op.upload ta meta uid →
      (ta.map trimString).Nodup ∧ ∀ t ∈ ta.map trimString, t ≠ "" ∧ ',' ∉ t.data) :
    ∀ t, tagCount (runOps ⟨[], users, [], 0⟩ ops).tags t =
      ((activeRefs (runOps ⟨[], users, [], 0⟩ ops) t : Nat) : Int) :=
  (goodStore_runOps ops ⟨[], users, [], 0⟩
    ⟨fun _ => rfl, List.nodup_nil, fun p hp => absurd hp (List.not_mem_nil p),
     fun p hp => absurd hp (List.not_mem_nil p)⟩ hops).1

/-- C2 witness: the amended invariant applied to one upload followed by
its soft delete by the poster (a Moderator user), read at the tag "a". -/
theorem tag_counter_invariant_witness :
    tagCount (runOps ⟨[], [⟨1, "u", none, "p", "pic", .Moderator⟩], [], 0⟩
      [Op.upload ["a", "b"] ⟨"f", .Png, 1, 1, 1, "", .Safe⟩ 1, Op.softDelete 0 1]).tags "a" =
    ((activeRefs (runOps ⟨[], [⟨1, "u", none, "p", "pic", .Moderator⟩], [], 0⟩
      [Op.upload ["a", "b"] ⟨"f", .Png, 1, 1, 1, "", .Safe⟩ 1, Op.softDelete 0 1]) "a" : Nat) : Int) :=
  tag_counter_invariant [⟨1, "u", none, "p", "pic", .Moderator⟩]
    [Op.upload ["a", "b"] ⟨"f", .Png, 1, 1, 1, "", .Safe⟩ 1, Op.softDelete 0 1]
    (by
      intro op hop ta meta uid heq
      rcases List.mem_cons.mp hop with rfl | hop'
      · cases heq
        exact ⟨by decide, by decide⟩
      · rcases List.mem_singleton.mp hop' with rfl
        cases heq) "a"

/-! ## Claim C8: stable pagination under the four total orderings -/

/-- The include/exclude expression pair a given token list produces: the
empty-token shape uses empty expressions, otherwise the builder output
(none when the builder panics). -/
def queryStrings (tags : List String) : Option (String × String) :=
  if tags.length = 0 then some ("", "")
  else
    match ts_query_builder tags with
    | .panicked => none
    | .ok ie => some ie

/-- The ORDER BY comparator coincides with the lexicographic order of
the sort key. -/
theorem postLe_iff_key (sorting : PostSorting) (p q : PostRow) :
    postLe sorting p q = true ↔ postKey sorting p ≤ postKey sorting q := by
  cases sorting <;>
    simp only [postLe, postKey, Prod.Lex.le_iff, Bool.or_eq_true, Bool.and_eq_true,
      decide_eq_true_eq] <;>
    omega

instance postLe_trans (sorting : PostSorting) :
    IsTrans PostRow (fun p q => postLe sorting p q = true) :=
  ⟨fun a b c hab hbc => by
    rw [postLe_iff_key] at hab hbc ⊢
    exact le_trans hab hbc⟩

instance postLe_total (sorting : PostSorting) :
    IsTotal PostRow (fun p q => postLe sorting p q = true) :=
  ⟨fun a b => by
    rw [postLe_iff_key, postLe_iff_key]
    exact le_total _ _⟩

/-- Equal sort keys force equal ids. -/
theorem postKey_id_inj (sorting : PostSorting) (p q : PostRow)
    (h : postKey sorting p = postKey sorting q) : p.id = q.id := by
  cases sorting <;>
    (rw [postKey, postKey, toLex_inj, Prod.mk.injEq] at h
     omega)

/-- Two sorted enumerations of the same rows with distinct ids are
equal: the id tiebreak leaves the ORDER BY no freedom. -/
theorem sorted_unique_by_key (sorting : PostSorting) :
    ∀ (l₁ l₂ : List PostRow), l₁.Perm l₂ →
      l₁.Pairwise (fun p q => postLe sorting p q = true) →
      l₂.Pairwise (fun p q => postLe sorting p q = true) →
      (l₂.map (fun p => p.id)).Nodup → l₁ = l₂ := by
  have hkeys : ∀ (l₁ l₂ : List PostRow), l₁.Perm l₂ →
      l₁.Pairwise (fun p q => postLe sorting p q = true) →
      l₂.Pairwise (fun p q => postLe sorting p q = true) →
      l₁.map (postKey sorting) = l₂.map (postKey sorting) := by
    intro l₁ l₂ hp h1 h2
    exact List.eq_of_perm_of_sorted (hp.map (postKey sorting))
      (List.Pairwise.map _ (fun a b hab => (postLe_iff_key sorting a b).mp hab) h1)
      (List.Pairwise.map _ (fun a b hab => (postLe_iff_key sorting a b).mp hab) h2)
  intro l₁
  induction l₁ with
  | nil =>
    intro l₂ hp _ _ _
    exact (List.Perm.nil_eq hp).symm.symm
  | cons a t ih =>
    intro l₂ hp h1 h2 hnd
    cases l₂ with
    | nil => exact absurd hp.symm (by simp)
    | cons b t₂ =>
      have hmap := hkeys (a :: t) (b :: t₂) hp h1 h2
      simp only [List.map_cons, List.cons.injEq] at hmap
      have hid : a.id = b.id := postKey_id_inj sorting a b hmap.1
      have hab : a = b := by
        by_contra hne
        have hmem : a ∈ b :: t₂ := hp.subset (List.mem_cons_self a t)
        rcases List.mem_cons.mp hmem with h | h
        · exact hne h
        · have : a.id ∈ t₂.map (fun p => p.id) := List.mem_map_of_mem _ h
          rw [hid] at this
          exact (List.nodup_cons.mp (by simpa using hnd)).1 this
      subst hab
      have ht : t = t₂ := by
        apply ih t₂ hp.cons_inv (List.Pairwise.of_cons h1) (List.Pairwise.of_cons h2)
        exact (List.nodup_cons.mp (by simpa using hnd)).2
      rw [ht]

/-- Concatenating the first pages of a drop/take pagination gives an
exact window of the underlying enumeration. -/
theorem pages_concat (L : List PostRow) (N : Nat) :
    ∀ k, (List.range (k + 1)).flatMap (fun pg => (L.drop (pg * N)).take N) =
      L.take ((k + 1) * N) := by
  intro k
  induction k with
  | zero => simp [show List.range 1 = [0] from rfl]
  | succ k ih =>
    rw [List.range_succ, List.flatMap_append, ih]
    have hmul : (k + 1 + 1) * N = (k + 1) * N + N := by ring
    rw [hmul, List.take_add]
    simp

/-- C8: the four sort orders are made total by the id tiebreak, so a
fixed query admits exactly one enumeration consistent with its ORDER BY
when ids are distinct; each page of `select_fulltext_tags` is the
matching drop/take window of that enumeration, the concatenation of
pages 0..k is exactly its first (k+1)*N rows (so nothing is skipped
relative to the unlimited query), and that concatenation has no
duplicates even when dates or scores collide. -/
theorem search_pagination_stable (posts : List PostRow) (tags : List String)
    (t_inc t_exc : String) (sorting : PostSorting) (N k : Nat)
    (hq : queryStrings tags = some (t_inc, t_exc))
    (hids : (posts.map (fun p => p.id)).Nodup)
    (harith : (k + 1) * N < 4294967296) :
    (∀ pg, pg ≤ k → select_fulltext_tags posts tags pg N sorting =
      .ok (((orderedRows posts t_inc t_exc sorting).drop (pg * N)).take N)) ∧
    ((List.range (k + 1)).flatMap
        (fun pg => ((orderedRows posts t_inc t_exc sorting).drop (pg * N)).take N) =
      (orderedRows posts t_inc t_exc sorting).take ((k + 1) * N)) ∧
    ((orderedRows posts t_inc t_exc sorting).take ((k + 1) * N)).Nodup ∧
    (∀ l, l.Perm (posts.filter (searchPred t_inc t_exc)) →
      l.Pairwise (fun p q => postLe sorting p q = true) →
      l = orderedRows posts t_inc t_exc sorting) := by
  have hnodup_posts : posts.Nodup := List.Nodup.of_map _ hids
  have hsub : (posts.filter (searchPred t_inc t_exc)).Sublist posts :=
    List.filter_sublist posts
  have hfil : (posts.filter (searchPred t_inc t_exc)).Nodup := hsub.nodup hnodup_posts
  have hpermL := List.perm_insertionSort (fun p q => postLe sorting p q = true)
    (posts.filter (searchPred t_inc t_exc))
  have hLnodup : (orderedRows posts t_inc t_exc sorting).Nodup :=
    hpermL.nodup_iff.mpr hfil
  refine ⟨?_, pages_concat _ _ k, (List.take_sublist _ _).nodup hLnodup, ?_⟩
  · intro pg hpg
    have hlt : pg * N < 4294967296 := by
      have h1 : pg * N ≤ (k + 1) * N := Nat.mul_le_mul_right N (by omega)
      omega
    have hmod : pg * N % 4294967296 = pg * N := Nat.mod_eq_of_lt hlt
    rw [queryStrings] at hq
    split at hq
    · rename_i hlen
      have h1 : "" = t_inc := congrArg Prod.fst (Option.some.inj hq)
      have h2 : "" = t_exc := congrArg Prod.snd (Option.some.inj hq)
      rw [select_fulltext_tags, if_pos hlen, hmod, ← h1, ← h2]
    · rename_i hlen
      rcases hb : ts_query_builder tags with ie | _ <;> rw [hb] at hq
      · have hie : ie = (t_inc, t_exc) := Option.some.inj hq
        rw [select_fulltext_tags, if_neg hlen, hb, hie, hmod]
      · cases hq
  · intro l hperm hsort
    have hperm2 : l.Perm (orderedRows posts t_inc t_exc sorting) :=
      hperm.trans hpermL.symm
    have hnd2 : ((orderedRows posts t_inc t_exc sorting).map (fun p => p.id)).Nodup := by
      have h1 : ((posts.filter (searchPred t_inc t_exc)).map (fun p => p.id)).Nodup :=
        (hsub.map (fun p => p.id)).nodup hids
      exact ((hpermL.map (fun p => p.id)).nodup_iff).mpr h1
    exact sorted_unique_by_key sorting l (orderedRows posts t_inc t_exc sorting) hperm2
      hsort (List.sorted_insertionSort _ _) hnd2

/-- C8 witness: the theorem applied to two posts sharing one creation
date (a tie resolved by the id), query tag "a", page size 1, pages 0-1. -/
theorem search_pagination_stable_witness :
    (List.range (1 + 1)).flatMap
      (fun pg => ((orderedRows [demoPost 1 1 5 0 ["a"] false, demoPost 2 1 5 0 ["a"] false]
        "a" "" .DateDescending).drop (pg * 1)).take 1) =
    (orderedRows [demoPost 1 1 5 0 ["a"] false, demoPost 2 1 5 0 ["a"] false]
      "a" "" .DateDescending).take ((1 + 1) * 1) :=
  (search_pagination_stable [demoPost 1 1 5 0 ["a"] false, demoPost 2 1 5 0 ["a"] false]
    ["a"] "a" "" .DateDescending 1 1 (by rfl) (by decide) (by decide)).2.1
